import Mathlib

/-!
Verification development for the fioctl concurrency core
(`src/fioctl/utils.py`, `src/fioctl/uploader.py`, `src/fioctl/assets.py`).

Each Python function that the properties below talk about is shallowly
embedded as an executable Lean definition, translated from the source:
machine integers become `Nat`/`Int`/`Rat`, fallible code returns
`Except`, dictionaries become association lists or functions into
`Option`, and Python truthiness is made explicit wherever the source
relies on it.
-/

namespace Fioctl

open List (Perm)

open scoped List

/-! ## Chunked Transfer Engine (`uploader.py`, `FrameioUploader`)

`_calculate_chunks` computes `chunk_size = int(math.ceil(filesize / chunks_num))`
and offsets `i * chunk_size`.  For `filesize < 2^53` the float division followed
by `ceil` agrees with the exact rational ceiling, which over `Nat` is
`(S + N - 1) / N`.  `_smart_read_chunk` seeks to the offset and reads
`chunk_size` bytes (the final chunk reads to end of file); `file.seek` past the
end followed by `read` yields no bytes, so the bytes actually delivered for a
read of `n` bytes at `offset` are the interval `[min offset S, min (offset+n) S)`.
-/

/-- `FrameioUploader._calculate_chunks` chunk size: `ceil(S / N)` over `Nat`. -/
def chunk_size (S N : ℕ) : ℕ := (S + N - 1) / N

/-- The chunk offsets produced by `_calculate_chunks`: `i * chunk_size` for `i < N`. -/
def chunk_offsets (S N : ℕ) : List ℕ := (List.range N).map (fun i => i * chunk_size S N)

/-- The byte range `[start, stop)` actually read by `_smart_read_chunk` for a
read at `offset`: `read(n)` delivers `[min offset S, min (offset+n) S)`, and a
final-chunk `read()` delivers `[min offset S, S)`. -/
def read_range (S n offset : ℕ) (is_final : Bool) : ℕ × ℕ :=
  (min offset S, if is_final then S else min (offset + n) S)

/-- The byte range delivered for chunk `i` of a file of size `S` split over `N`
upload URLs (`_upload_chunk` marks chunk `i` final iff `i + 1 = N`). -/
def chunk_range (S N i : ℕ) : ℕ × ℕ :=
  read_range S (chunk_size S N) (i * chunk_size S N) (i + 1 == N)

/-- Number of bytes delivered for chunk `i`. -/
def chunk_len (S N i : ℕ) : ℕ := (chunk_range S N i).2 - (chunk_range S N i).1

/-- Clamped chunk boundary `min (i * chunk_size) S`. -/
def chunk_boundary (S N i : ℕ) : ℕ := min (i * chunk_size S N) S

theorem chunk_size_mul_ge (S N : ℕ) (hN : 1 ≤ N) : S ≤ N * chunk_size S N := by
  unfold chunk_size
  have h := Nat.div_add_mod (S + N - 1) N
  have hlt : (S + N - 1) % N < N := Nat.mod_lt _ (by omega)
  omega

theorem chunk_boundary_last (S N : ℕ) (hN : 1 ≤ N) : chunk_boundary S N N = S := by
  unfold chunk_boundary
  have h := chunk_size_mul_ge S N hN
  have : N * chunk_size S N = chunk_size S N * N := Nat.mul_comm _ _
  omega

theorem chunk_boundary_mono (S N : ℕ) : Monotone (chunk_boundary S N) := by
  intro i j hij
  unfold chunk_boundary
  exact min_le_min (Nat.mul_le_mul_right _ hij) le_rfl

theorem chunk_range_eq (S N i : ℕ) (hi : i + 1 < N) :
    chunk_range S N i = (chunk_boundary S N i, chunk_boundary S N (i + 1)) := by
  unfold chunk_range read_range chunk_boundary
  have : (i + 1 == N) = false := by
    simp only [beq_eq_false_iff_ne]; omega
  rw [this]
  simp [Nat.succ_mul]

theorem chunk_range_final (S N : ℕ) (hN : 1 ≤ N) :
    chunk_range S N (N - 1) = (chunk_boundary S N (N - 1), S) := by
  unfold chunk_range read_range chunk_boundary
  have : (N - 1 + 1 == N) = true := by
    simp only [beq_iff_eq]; omega
  rw [this]
  simp

theorem chunk_len_eq (S N i : ℕ) (hN : 1 ≤ N) (hi : i < N) :
    chunk_len S N i = chunk_boundary S N (i + 1) - chunk_boundary S N i := by
  unfold chunk_len
  rcases Nat.lt_or_ge (i + 1) N with h | h
  · rw [chunk_range_eq S N i h]
  · have hie : i = N - 1 := by omega
    subst hie
    rw [chunk_range_final S N hN]
    have : N - 1 + 1 = N := by omega
    rw [this, chunk_boundary_last S N hN]

/-- C3 counterexample: for `S = 5`, `N = 4` the chunk size is `ceil(5/4) = 2`
but chunk `2` (an index in `0..N-2`) delivers only `1` byte, because its range
is clamped at end of file.  The claim "ranges `0..N-2` each of length
`ceil(S/N)`" is false. -/
theorem chunk_len_claim_cex :
    chunk_size 5 4 = 2 ∧ chunk_len 5 4 2 = 1 ∧
      ¬ (∀ i, i ≤ 4 - 2 → chunk_len 5 4 i = chunk_size 5 4) := by
  refine ⟨by decide, by decide, fun h => ?_⟩
  have h2 := h 2 (by decide)
  rw [show chunk_len 5 4 2 = 1 from by decide,
    show chunk_size 5 4 = 2 from by decide] at h2
  exact absurd h2 (by decide)

/-- C3 (amended): for all `S` and `N ≥ 1`, with `cs = ceil(S/N)`, chunk `i`
delivers the byte range `[min (i*cs) S, min ((i+1)*cs) S)` (the last chunk runs
to end of file, which coincides with `min (N*cs) S = S`); the ranges are
contiguous, start at `0`, end at `S`, are non-overlapping, and their lengths
sum exactly to `S`.  Ranges `0..N-2` each have length `cs` exactly when
`(N-1)*cs ≤ S`; the seek offset of chunk `i` is always `i*cs`. -/
theorem chunk_partition (S N : ℕ) (hN : 1 ≤ N) :
    (chunk_range S N 0).1 = 0
    ∧ (chunk_range S N (N - 1)).2 = S
    ∧ (∀ i, i + 1 < N → (chunk_range S N i).2 = (chunk_range S N (i + 1)).1)
    ∧ (∀ i j, i + 1 ≤ j → j < N → (chunk_range S N i).2 ≤ (chunk_range S N j).1)
    ∧ (∑ i ∈ Finset.range N, chunk_len S N i) = S
    ∧ (chunk_offsets S N = (List.range N).map (fun i => i * chunk_size S N))
    ∧ ((N - 1) * chunk_size S N ≤ S →
        ∀ i, i + 1 < N → chunk_len S N i = chunk_size S N) := by
  have hb0 : ∀ i, (chunk_range S N i).1 = chunk_boundary S N i := by
    intro i
    unfold chunk_range read_range chunk_boundary
    cases h : (i + 1 == N) <;> simp
  refine ⟨?_, ?_, ?_, ?_, ?_, rfl, ?_⟩
  · rw [hb0]; unfold chunk_boundary; simp
  · rw [chunk_range_final S N hN]
  · intro i hi
    rw [chunk_range_eq S N i hi, hb0]
  · intro i j hij hj
    have h2 : (chunk_range S N i).2 = chunk_boundary S N (i + 1) := by
      rcases Nat.lt_or_ge (i + 1) N with h | h
      · rw [chunk_range_eq S N i h]
      · have : i = N - 1 := by omega
        subst this
        rw [chunk_range_final S N hN]
        have hEq : N - 1 + 1 = N := by omega
        rw [hEq, chunk_boundary_last S N hN]
    rw [h2, hb0]
    exact chunk_boundary_mono S N hij
  · have hlen : ∀ i ∈ Finset.range N, chunk_len S N i =
        chunk_boundary S N (i + 1) - chunk_boundary S N i := by
      intro i hi
      exact chunk_len_eq S N i hN (Finset.mem_range.mp hi)
    rw [Finset.sum_congr rfl hlen,
      Finset.sum_range_tsub (chunk_boundary_mono S N)]
    rw [chunk_boundary_last S N hN]
    unfold chunk_boundary
    simp
  · intro hfit i hi
    rw [chunk_len_eq S N i hN (by omega)]
    unfold chunk_boundary
    have h1 : (i + 1) * chunk_size S N ≤ S := by
      calc (i + 1) * chunk_size S N ≤ (N - 1) * chunk_size S N :=
            Nat.mul_le_mul_right _ (by omega)
        _ ≤ S := hfit
    have h2 : i * chunk_size S N ≤ S :=
      le_trans (Nat.mul_le_mul_right _ (by omega)) h1
    rw [min_eq_left h1, min_eq_left h2, Nat.succ_mul]
    omega

/-- Witness for `chunk_partition` at `S = 5`, `N = 4`. -/
theorem chunk_partition_witness :
    (1 ≤ 4) ∧
    ((chunk_range 5 4 0).1 = 0
    ∧ (chunk_range 5 4 (4 - 1)).2 = 5
    ∧ (∀ i, i + 1 < 4 → (chunk_range 5 4 i).2 = (chunk_range 5 4 (i + 1)).1)
    ∧ (∀ i j, i + 1 ≤ j → j < 4 → (chunk_range 5 4 i).2 ≤ (chunk_range 5 4 j).1)
    ∧ (∑ i ∈ Finset.range 4, chunk_len 5 4 i) = 5
    ∧ (chunk_offsets 5 4 = (List.range 4).map (fun i => i * chunk_size 5 4))
    ∧ ((4 - 1) * chunk_size 5 4 ≤ 5 →
        ∀ i, i + 1 < 4 → chunk_len 5 4 i = chunk_size 5 4)) :=
  ⟨by decide, chunk_partition 5 4 (by decide)⟩

/-! ## Include/exclude filter (`utils.create_include_exclude_filter`)

The Python source:
```
re_include = user_re_include if user_re_include else lambda value: True
re_exclude = user_re_exclude if user_re_exclude else lambda value: True
def _callable(value):
    if re_include(value) and not re_exclude(value):
        return True
    return False
```
Note the absent-exclude default is `lambda value: True` (always-true), not
never-true.  The user-supplied patterns are match predicates; their Python
truthiness is embedded as `Bool`-valued predicates.
-/

/-- Shallow embedding of `utils.create_include_exclude_filter`. `none` stands
for an absent (falsy) user pattern. -/
def create_include_exclude_filter {α : Type} (user_re_include user_re_exclude : Option (α → Bool)) :
    α → Bool :=
  let re_include := user_re_include.getD (fun _ => true)
  let re_exclude := user_re_exclude.getD (fun _ => true)
  fun value => if re_include value && !(re_exclude value) then true else false

/-- The filter as the specification describes it: accept iff
`include_match(x) AND NOT exclude_match(x)`, with an absent include pattern
treated as always-true and an absent exclude pattern treated as never-true. -/
def claimed_include_exclude_filter {α : Type} (user_re_include user_re_exclude : Option (α → Bool)) :
    α → Bool :=
  fun value =>
    (user_re_include.getD (fun _ => true)) value && !((user_re_exclude.getD (fun _ => false)) value)

/-- C6: with an include pattern given (here: one matching everything) and no
exclude pattern, the source filter rejects every value, because the absent
exclude pattern defaults to always-true; the specified filter accepts.  The
code contradicts the documented purpose of the `--include-*` options. -/
theorem include_exclude_filter_divergence :
    create_include_exclude_filter (α := ℕ) (some (fun _ => true)) none 0 = false
    ∧ claimed_include_exclude_filter (α := ℕ) (some (fun _ => true)) none 0 = true
    ∧ (∀ (p : ℕ → Bool) (x : ℕ), create_include_exclude_filter (some p) none x = false) := by
  refine ⟨rfl, rfl, fun p x => ?_⟩
  unfold create_include_exclude_filter
  simp

/-! ## Retry Policy (`utils.retry`)

```
def retry(callable, *args, max_retry_time_sec: int = 4, **kwargs):
    retry_time_sleep = max_retry_time_sec
    attempt = kwargs.pop("attempt", 0)
    try:
        callable(*args, **kwargs)
    except Exception as e:
        sleep_sec = min(0.5 * math.pow(2, attempt), retry_time_sleep)
        logger.warning(...)
        time.sleep(sleep_sec)
        kwargs["attempt"] = attempt + 1
        retry(callable, *args, **kwargs)
```
Two structural facts of this source are embedded faithfully: the recursive
call `retry(callable, *args, **kwargs)` does NOT forward `max_retry_time_sec`
(it was bound to the keyword-only parameter, not `kwargs`), so every recursion
level but the first uses the default cap `4`; and the function body has no
`return` statement, so it returns `None` both on success (the callable's
value is discarded) and after the recursion.

The callable is embedded as a function from the attempt number to an
`Except`; the embedding returns the list of sleep durations performed plus
the returned value (`none` = Python `None`), with `none` at the outer
`Option` meaning the given fuel was exhausted without the callable ever
succeeding (the source recursion has no base case for failure). -/

/-- Default value of `retry`'s keyword-only parameter `max_retry_time_sec`. -/
def default_max_retry_time_sec : ℕ := 4

/-- Sleep computed for a failure at attempt counter `attempt` under cap `cap`:
`min(0.5 * 2**attempt, cap)`. -/
def retry_sleep (attempt : ℕ) (cap : ℚ) : ℚ := min ((1 / 2) * 2 ^ attempt) cap

/-- Shallow embedding of `utils.retry` (see module comment): the recursion
resets the cap to the default `4` because the source omits
`max_retry_time_sec` from the recursive call.  `fuel` bounds how many failed
attempts we are willing to unfold; the source itself has no failure base
case, which is why exhausted fuel maps to `none` (non-termination). -/
def retry_run {E γ : Type} (g : ℕ → Except E γ) (cap : ℚ) (attempt : ℕ) :
    ℕ → Option (List ℚ × Option γ)
  | 0 =>
    match g attempt with
    | .ok _ => some ([], none)
    | .error _ => none
  | fuel' + 1 =>
    match g attempt with
    | .ok _ => some ([], none)
    | .error _ =>
      (retry_run g ((default_max_retry_time_sec : ℕ) : ℚ) (attempt + 1) fuel').map
        (fun r => (retry_sleep attempt cap :: r.1, none))

/-- `utils.retry` as called: attempt counter starts at `0`. -/
def retry {E γ : Type} (g : ℕ → Except E γ) (cap : ℚ) (fuel : ℕ) :
    Option (List ℚ × Option γ) :=
  retry_run g cap 0 fuel

/-- The sleep the source actually performs before the `(i+1)`-th retry: the
caller's cap applies only at attempt `0`; afterwards the default `4`. -/
def retry_actual_sleep (cap : ℚ) (i : ℕ) : ℚ :=
  retry_sleep i (if i = 0 then cap else ((default_max_retry_time_sec : ℕ) : ℚ))

theorem retry_run_eq {E γ : Type} (g : ℕ → Except E γ) (cap : ℚ) (a k m : ℕ)
    (hfail : ∀ i, i < k → ∃ e, g (a + i) = Except.error e)
    (hok : ∃ c, g (a + k) = Except.ok c) :
    retry_run g cap a (k + m) =
      some ((List.range k).map
        (fun i => retry_sleep (a + i)
          (if i = 0 then cap else ((default_max_retry_time_sec : ℕ) : ℚ))), none) := by
  induction k generalizing a cap m with
  | zero =>
    obtain ⟨c, hc⟩ := hok
    simp only [Nat.add_zero] at hc
    cases m with
    | zero => simp [retry_run, hc]
    | succ m' => simp [retry_run, hc]
  | succ k ih =>
    obtain ⟨e, he⟩ := hfail 0 (Nat.succ_pos k)
    simp only [Nat.add_zero] at he
    have hfail' : ∀ i, i < k → ∃ e, g (a + 1 + i) = Except.error e := by
      intro i hi
      have := hfail (i + 1) (by omega)
      rwa [show a + (i + 1) = a + 1 + i by omega] at this
    have hok' : ∃ c, g (a + 1 + k) = Except.ok c := by
      rwa [show a + 1 + k = a + (k + 1) by omega]
    have hrec := ih (((default_max_retry_time_sec : ℕ) : ℚ)) (a + 1) m hfail' hok'
    have hfuel : k + 1 + m = (k + m) + 1 := by omega
    rw [hfuel]
    simp only [retry_run, he, hrec, Option.map_some, Option.map_some']
    have hh : retry_sleep a cap :: (List.range k).map
        (fun i => retry_sleep (a + 1 + i)
          (if i = 0 then ((default_max_retry_time_sec : ℕ) : ℚ)
            else ((default_max_retry_time_sec : ℕ) : ℚ)))
        = (List.range (k + 1)).map
          (fun i => retry_sleep (a + i)
            (if i = 0 then cap else ((default_max_retry_time_sec : ℕ) : ℚ))) := by
      rw [List.range_succ_eq_map, List.map_cons, List.map_map]
      refine congrArg₂ List.cons (by simp) ?_
      apply List.map_congr_left
      intro i _
      simp only [Function.comp_apply, ite_self]
      rw [if_neg (Nat.succ_ne_zero i)]
      congr 1
      omega
    rw [hh]

/-- C5 counterexample: with cap `5` and a callable failing on attempts `0..4`
and succeeding at attempt `5`, the source sleeps `[1/2, 1, 2, 4, 4]`: the
fifth sleep is `4`, not `min(0.5 * 2^4, 5) = 5` as the claim states, because
the recursive call drops `max_retry_time_sec` and reverts to the default `4`. -/
theorem retry_backoff_claim_cex :
    retry (fun n => if n < 5 then Except.error () else Except.ok ()) (5 : ℚ) 9
      = some ([1/2, 1, 2, 4, 4], none)
    ∧ retry_sleep 4 (5 : ℚ) = 5
    ∧ ((4 : ℚ) ≠ 5) := by
  refine ⟨?_, by norm_num [retry_sleep], by norm_num⟩
  unfold retry
  have h := retry_run_eq (fun n => if n < 5 then Except.error () else Except.ok ())
    (5 : ℚ) 0 5 4 (fun i hi => ⟨(), by interval_cases i <;> rfl⟩) ⟨(), rfl⟩
  rw [h]
  norm_num [List.range_succ, retry_sleep, default_max_retry_time_sec]

theorem retry_run_never_ok {E γ : Type} (g : ℕ → Except E γ) (cap : ℚ) (a fuel : ℕ)
    (hfail : ∀ i, ∃ e, g i = Except.error e) :
    retry_run g cap a fuel = none := by
  induction fuel generalizing a cap with
  | zero =>
    obtain ⟨e, he⟩ := hfail a
    simp [retry_run, he]
  | succ fuel ih =>
    obtain ⟨e, he⟩ := hfail a
    simp [retry_run, he, ih]

theorem retry_actual_sleep_mono (cap : ℚ) : Monotone (retry_actual_sleep cap) := by
  intro i j hij
  unfold retry_actual_sleep retry_sleep default_max_retry_time_sec
  rcases Nat.eq_zero_or_pos i with hi | hi
  · subst hi
    rcases Nat.eq_zero_or_pos j with hj | hj
    · subst hj; exact le_rfl
    · have hj0 : j ≠ 0 := by omega
      simp only [if_pos rfl, if_neg hj0]
      have h1 : (1 / 2 : ℚ) * 2 ^ 0 ≤ (1 / 2) * 2 ^ j := by
        have : (2 : ℚ) ^ 0 ≤ 2 ^ j := pow_le_pow_right₀ (by norm_num) (Nat.zero_le j)
        nlinarith
      refine le_min ?_ ?_
      · exact le_trans (min_le_left _ _) h1
      · exact le_trans (min_le_left _ _) (by norm_num)
  · have hi0 : i ≠ 0 := by omega
    have hj0 : j ≠ 0 := by omega
    simp only [if_neg hi0, if_neg hj0]
    refine min_le_min ?_ le_rfl
    have : (2 : ℚ) ^ i ≤ 2 ^ j := pow_le_pow_right₀ (by norm_num) hij
    nlinarith

theorem retry_actual_sleep_clamp (cap : ℚ) (i : ℕ) (hi : 3 ≤ i) :
    retry_actual_sleep cap i = ((default_max_retry_time_sec : ℕ) : ℚ) := by
  unfold retry_actual_sleep retry_sleep default_max_retry_time_sec
  have hi0 : i ≠ 0 := by omega
  simp only [if_neg hi0]
  refine min_eq_right ?_
  have h8 : (2 : ℚ) ^ 3 ≤ 2 ^ i := pow_le_pow_right₀ (by norm_num) hi
  norm_num
  nlinarith

/-- C5 (amended): the sleep before the first retry is `min(0.5, cap)`; the
sleep before the `(i+1)`-th retry for `i ≥ 1` is `min(0.5 * 2^i, 4)` — the
caller's cap is not forwarded through the recursive call and is replaced by
the default `4` from the second sleep on.  The sleep sequence is
non-decreasing; it clamps at the default `4` (not at `cap`) from `i = 3` on;
and the policy retries indefinitely — it performs exactly the failed attempts'
sleeps then returns once the wrapped operation succeeds, and under permanent
failure no amount of fuel makes it terminate. -/
theorem retry_backoff_spec {E γ : Type} (g : ℕ → Except E γ) (cap : ℚ) (k m : ℕ)
    (hfail : ∀ i, i < k → ∃ e, g i = Except.error e)
    (hok : ∃ c, g k = Except.ok c) :
    retry g cap (k + m) = some ((List.range k).map (retry_actual_sleep cap), none)
    ∧ (∀ i j, i ≤ j → retry_actual_sleep cap i ≤ retry_actual_sleep cap j)
    ∧ (∀ i, 3 ≤ i → retry_actual_sleep cap i = ((default_max_retry_time_sec : ℕ) : ℚ))
    ∧ (∀ (g' : ℕ → Except E γ) (fuel : ℕ), (∀ i, ∃ e, g' i = Except.error e) →
        retry g' cap fuel = none) := by
  refine ⟨?_, fun i j hij => retry_actual_sleep_mono cap hij,
    fun i hi => retry_actual_sleep_clamp cap i hi,
    fun g' fuel hf => retry_run_never_ok g' cap 0 fuel hf⟩
  unfold retry
  have h := retry_run_eq g cap 0 k m (by simpa using hfail) (by simpa using hok)
  rw [h]
  congr 2
  apply List.map_congr_left
  intro i _
  simp [retry_actual_sleep]

/-- Witness for `retry_backoff_spec`: callable failing at attempts `0` and `1`,
succeeding at attempt `2`, cap `5`. -/
theorem retry_backoff_spec_witness :
    (∀ i, i < 2 → ∃ e, (fun n => if n < 2 then Except.error () else Except.ok ()) i
        = Except.error e)
    ∧ (∃ c, (fun n => if n < 2 then Except.error () else Except.ok ()) 2 = Except.ok c)
    ∧ (retry (fun n => if n < 2 then Except.error () else Except.ok ()) (5 : ℚ) (2 + 1)
        = some ((List.range 2).map (retry_actual_sleep 5), none)
      ∧ (∀ i j, i ≤ j → retry_actual_sleep 5 i ≤ retry_actual_sleep 5 j)
      ∧ (∀ i, 3 ≤ i → retry_actual_sleep 5 i = ((default_max_retry_time_sec : ℕ) : ℚ))
      ∧ (∀ (g' : ℕ → Except Unit Unit) (fuel : ℕ), (∀ i, ∃ e, g' i = Except.error e) →
          retry g' 5 fuel = none)) :=
  ⟨fun i hi => ⟨(), by interval_cases i <;> rfl⟩, ⟨(), rfl⟩,
    retry_backoff_spec (fun n => if n < 2 then Except.error () else Except.ok ()) 5 2 1
      (fun i hi => ⟨(), by interval_cases i <;> rfl⟩) ⟨(), rfl⟩⟩

/-- C10: `utils.retry` has no `return` statement, so whenever it terminates it
returns `None`, discarding the wrapped callable's value even on first-attempt
success; a caller binding its result (as `_upload_chunk` binds the HTTP
response) always observes `None`. -/
theorem retry_returns_none {E γ : Type} (g : ℕ → Except E γ) (cap : ℚ) (fuel : ℕ)
    (s : List ℚ) (r : Option γ) (h : retry g cap fuel = some (s, r)) : r = none := by
  unfold retry at h
  cases fuel with
  | zero =>
    cases hg : g 0 with
    | ok c =>
      simp only [retry_run, hg] at h
      obtain ⟨-, h2⟩ := Prod.mk.inj (Option.some.inj h)
      exact h2.symm
    | error e => simp [retry_run, hg] at h
  | succ fuel' =>
    cases hg : g 0 with
    | ok c =>
      simp only [retry_run, hg] at h
      obtain ⟨-, h2⟩ := Prod.mk.inj (Option.some.inj h)
      exact h2.symm
    | error e =>
      cases hrec : retry_run g ((default_max_retry_time_sec : ℕ) : ℚ) 1 fuel' with
      | none => simp [retry_run, hg, hrec] at h
      | some p =>
        simp only [retry_run, hg, hrec, Option.map_some] at h
        obtain ⟨-, h2⟩ := Prod.mk.inj (Option.some.inj h)
        exact h2.symm

/-- Witness for `retry_returns_none`: a callable returning `7` on its first
attempt; `retry` still yields `None`. -/
theorem retry_returns_none_witness :
    retry (E := Unit) (γ := ℕ) (fun _ => Except.ok 7) (4 : ℚ) 0 = some ([], none)
    ∧ (none : Option ℕ) = none :=
  ⟨rfl, retry_returns_none (E := Unit) (fun _ => Except.ok 7) 4 0 [] none rfl⟩


/-! ## Progress Slot Pool (`utils.PositionTracker`)

```
class PositionTracker(object):
    def __init__(self, size):
        self.positions = range(size)
        self.used = set()
        self.lock = threading.RLock()
    def acquire(self):
        with self.lock:
            position = min(list(pos for pos in self.positions if pos not in self.used))
            self.used.add(position)
            return position
    def release(self, position):
        with self.lock:
            self.used.remove(position)
```
Both methods hold the single lock, so any concurrent interleaving of calls is
equivalent to a sequence of atomic operations; a trace is embedded as a list
of operations run against the `used` set, which is represented as a
duplicate-free list.  `min` of an empty candidate list raises `ValueError`
and `set.remove` of an absent member raises `KeyError`; both are embedded as
an invalid (rejected, `none`) trace. -/

/-- One operation on a `PositionTracker`. -/
inductive TrackerOp : Type
  | acquire : TrackerOp
  | release : ℕ → TrackerOp
  deriving DecidableEq

/-- The candidate list built inside `acquire`:
`pos for pos in range(size) if pos not in used`. -/
def tracker_candidates (size : ℕ) (used : List ℕ) : List ℕ :=
  (List.range size).filter (fun pos => decide (pos ∉ used))

/-- Atomic semantics of one `PositionTracker` method call: the new `used` set
and the value returned by `acquire`. -/
def tracker_step (size : ℕ) (used : List ℕ) : TrackerOp → Option (List ℕ × Option ℕ)
  | .acquire =>
    match (tracker_candidates size used).min? with
    | none => none
    | some position => some (position :: used, some position)
  | .release n => if n ∈ used then some (used.erase n, none) else none

/-- One record of an executed operation: the `used` set before, the operation,
`acquire`'s return value (if any), and the `used` set after. -/
structure TrackerStep : Type where
  before : List ℕ
  op : TrackerOp
  out : Option ℕ
  after : List ℕ
  deriving DecidableEq

/-- Run a list of operations from a given `used` set, recording each step;
`none` if some operation raises. -/
def tracker_run (size : ℕ) : List ℕ → List TrackerOp → Option (List TrackerStep)
  | _, [] => some []
  | used, op :: ops =>
    match tracker_step size used op with
    | none => none
    | some (used', out) =>
      (tracker_run size used' ops).map (fun tr => ⟨used, op, out, used'⟩ :: tr)

theorem nat_min?_eq_some_iff {xs : List ℕ} {a : ℕ} :
    xs.min? = some a ↔ a ∈ xs ∧ ∀ b ∈ xs, a ≤ b :=
  List.min?_eq_some_iff (fun a => Nat.le_refl a) (fun a b => by omega) (fun a b c => by omega)

theorem tracker_candidates_mem (size : ℕ) (used : List ℕ) (x : ℕ) :
    x ∈ tracker_candidates size used ↔ x < size ∧ x ∉ used := by
  unfold tracker_candidates
  simp [List.mem_filter, List.mem_range]

theorem tracker_step_acquire (size : ℕ) (used : List ℕ) (used' : List ℕ) (out : Option ℕ)
    (hstep : tracker_step size used .acquire = some (used', out)) :
    ∃ m, out = some m ∧ m < size ∧ m ∉ used ∧ (∀ j, j < m → j ∈ used) ∧ used' = m :: used := by
  rw [tracker_step] at hstep
  cases hmin : (tracker_candidates size used).min? with
  | none => rw [hmin] at hstep; cases hstep
  | some m =>
    rw [hmin] at hstep
    obtain ⟨h1, h2⟩ := Prod.mk.inj (Option.some.inj hstep)
    obtain ⟨hmem, hle⟩ := nat_min?_eq_some_iff.mp hmin
    rw [tracker_candidates_mem] at hmem
    refine ⟨m, h2.symm, hmem.1, hmem.2, ?_, h1.symm⟩
    intro j hj
    by_contra hj'
    have hjc : j ∈ tracker_candidates size used :=
      (tracker_candidates_mem size used j).mpr ⟨lt_trans hj hmem.1, hj'⟩
    have := hle j hjc
    omega

theorem tracker_run_props (size : ℕ) (used : List ℕ)
    (hused : ∀ x ∈ used, x < size) (hnodup : used.Nodup)
    (ops : List TrackerOp) (tr : List TrackerStep)
    (h : tracker_run size used ops = some tr) :
    (∀ s ∈ tr, (∀ x ∈ s.before, x < size) ∧ s.before.Nodup
        ∧ (∀ x ∈ s.after, x < size) ∧ s.after.Nodup)
    ∧ (∀ s ∈ tr, s.op = .acquire → ∃ m, s.out = some m ∧ m < size ∧ m ∉ s.before
        ∧ (∀ j, j < m → j ∈ s.before) ∧ s.after = m :: s.before)
    ∧ (∀ s ∈ tr, ∀ n, s.op = .release n → n ∈ s.before ∧ s.after = s.before.erase n) := by
  induction ops generalizing used tr with
  | nil =>
    rw [tracker_run] at h
    cases h
    exact ⟨fun s hs => absurd hs (List.not_mem_nil s),
      fun s hs => absurd hs (List.not_mem_nil s),
      fun s hs => absurd hs (List.not_mem_nil s)⟩
  | cons op ops ih =>
    rw [tracker_run] at h
    cases hstep : tracker_step size used op with
    | none => rw [hstep] at h; exact Option.noConfusion h
    | some p =>
      obtain ⟨used', out⟩ := p
      rw [hstep] at h
      have h' : (tracker_run size used' ops).map
          (fun tr => (⟨used, op, out, used'⟩ : TrackerStep) :: tr) = some tr := h
      cases htr : tracker_run size used' ops with
      | none => rw [htr] at h'; exact Option.noConfusion h'
      | some tr' =>
        rw [htr, Option.map_some'] at h'
        cases h'
        have hhead : (∀ x ∈ used', x < size) ∧ used'.Nodup ∧
            (op = .acquire → ∃ m, out = some m ∧ m < size ∧ m ∉ used
              ∧ (∀ j, j < m → j ∈ used) ∧ used' = m :: used) ∧
            (∀ n, op = .release n → n ∈ used ∧ used' = used.erase n) := by
          cases op with
          | acquire =>
            obtain ⟨m, hout, hm, hmn, hleast, hafter⟩ :=
              tracker_step_acquire size used used' out hstep
            subst hafter
            refine ⟨?_, List.nodup_cons.mpr ⟨hmn, hnodup⟩,
              fun _ => ⟨m, hout, hm, hmn, hleast, rfl⟩, fun n hn => TrackerOp.noConfusion hn⟩
            intro x hx
            rcases List.mem_cons.mp hx with hx | hx
            · subst hx; exact hm
            · exact hused x hx
          | release n =>
            rw [tracker_step] at hstep
            by_cases hn : n ∈ used
            · rw [if_pos hn] at hstep
              obtain ⟨h1, h2⟩ := Prod.mk.inj (Option.some.inj hstep)
              subst h1
              refine ⟨fun x hx => hused x (List.mem_of_mem_erase hx), hnodup.erase n,
                fun hc => TrackerOp.noConfusion hc, fun n' hn' => ?_⟩
              injection hn' with hnn
              subst hnn
              exact ⟨hn, rfl⟩
            · rw [if_neg hn] at hstep; cases hstep
        obtain ⟨hsub', hnodup', hacq, hrel⟩ := hhead
        obtain ⟨ih1, ih2, ih3⟩ := ih used' hsub' hnodup' tr' htr
        refine ⟨?_, ?_, ?_⟩
        · intro s hs
          rcases List.mem_cons.mp hs with hs | hs
          · subst hs; exact ⟨hused, hnodup, hsub', hnodup'⟩
          · exact ih1 s hs
        · intro s hs
          rcases List.mem_cons.mp hs with hs | hs
          · subst hs; exact hacq
          · exact ih2 s hs
        · intro s hs
          rcases List.mem_cons.mp hs with hs | hs
          · subst hs; exact hrel
          · exact ih3 s hs

/-- C8: along every valid trace of lock-serialized `acquire`/`release` calls
started from an empty pool (acquire only legal while a free slot exists,
release only legal for a held slot — otherwise the Python raises), every
`acquire` returns the smallest integer in `[0, capacity)` not currently held —
so never a value `≥ capacity`, never a currently-held value (at most one
holder per slot), with every smaller value held at that moment; `release n`
removes exactly `n` from the held set; and immediately after `release n` the
smallest free value (the next `acquire`'s return value) is `≤ n`, so the
released slot is again acquirable and preferred over all larger free values. -/
theorem position_tracker_spec (size : ℕ) (ops : List TrackerOp) (tr : List TrackerStep)
    (h : tracker_run size [] ops = some tr) :
    (∀ s ∈ tr, (∀ x ∈ s.before, x < size) ∧ s.before.Nodup
        ∧ (∀ x ∈ s.after, x < size) ∧ s.after.Nodup)
    ∧ (∀ s ∈ tr, s.op = .acquire → ∃ m, s.out = some m ∧ m < size ∧ m ∉ s.before
        ∧ (∀ j, j < m → j ∈ s.before) ∧ s.after = m :: s.before)
    ∧ (∀ s ∈ tr, ∀ n, s.op = .release n → n ∈ s.before ∧ s.after = s.before.erase n
        ∧ ∀ m', (tracker_candidates size s.after).min? = some m' → m' ≤ n) := by
  obtain ⟨h1, h2, h3⟩ := tracker_run_props size []
    (fun x hx => absurd hx (List.not_mem_nil x)) List.nodup_nil ops tr h
  refine ⟨h1, h2, fun s hs n hn => ?_⟩
  obtain ⟨hmem, hafter⟩ := h3 s hs n hn
  refine ⟨hmem, hafter, fun m' hm' => ?_⟩
  obtain ⟨hbound, hnodup, -, -⟩ := h1 s hs
  have hnc : n ∈ tracker_candidates size s.after := by
    rw [tracker_candidates_mem]
    refine ⟨hbound n hmem, ?_⟩
    rw [hafter]
    exact hnodup.not_mem_erase
  exact (nat_min?_eq_some_iff.mp hm').2 n hnc

/-- Witness for `position_tracker_spec`: capacity `2`, trace
`acquire → acquire → release 0 → acquire`; outputs `0, 1, -, 0`: the released
slot `0` is handed out again, preferred over the still-free larger values. -/
theorem position_tracker_spec_witness :
    (tracker_run 2 [] [.acquire, .acquire, .release 0, .acquire]
      = some [⟨[], .acquire, some 0, [0]⟩, ⟨[0], .acquire, some 1, [1, 0]⟩,
          ⟨[1, 0], .release 0, none, [1]⟩, ⟨[1], .acquire, some 0, [0, 1]⟩])
    ∧ ((∀ s ∈ ([⟨[], .acquire, some 0, [0]⟩, ⟨[0], .acquire, some 1, [1, 0]⟩,
          ⟨[1, 0], .release 0, none, [1]⟩, ⟨[1], .acquire, some 0, [0, 1]⟩] : List TrackerStep),
          (∀ x ∈ s.before, x < 2) ∧ s.before.Nodup
            ∧ (∀ x ∈ s.after, x < 2) ∧ s.after.Nodup)
      ∧ (∀ s ∈ ([⟨[], .acquire, some 0, [0]⟩, ⟨[0], .acquire, some 1, [1, 0]⟩,
          ⟨[1, 0], .release 0, none, [1]⟩, ⟨[1], .acquire, some 0, [0, 1]⟩] : List TrackerStep),
          s.op = .acquire → ∃ m, s.out = some m ∧ m < 2 ∧ m ∉ s.before
            ∧ (∀ j, j < m → j ∈ s.before) ∧ s.after = m :: s.before)
      ∧ (∀ s ∈ ([⟨[], .acquire, some 0, [0]⟩, ⟨[0], .acquire, some 1, [1, 0]⟩,
          ⟨[1, 0], .release 0, none, [1]⟩, ⟨[1], .acquire, some 0, [0, 1]⟩] : List TrackerStep),
          ∀ n, s.op = .release n → n ∈ s.before ∧ s.after = s.before.erase n
            ∧ ∀ m', (tracker_candidates 2 s.after).min? = some m' → m' ≤ n)) :=
  ⟨by decide, position_tracker_spec 2 [.acquire, .acquire, .release 0, .acquire] _ (by decide)⟩

/-! ## Rendition Resolver (`assets.get_proxy`, `assets.PROXY_TABLE`)

```
def get_proxy(asset, proxy):
    asset_type = (
        "image"
        if asset.get("asset_type") == "document"
        else asset.get("asset_type", "stream")
    )
    if not proxy or proxy == "original":
        return ("original", asset["original"])
    if proxy not in PROXY_CASCADE:
        return asset.get(proxy)
    idx = PROXY_CASCADE.index(proxy)
    for level in PROXY_CASCADE[idx:]:
        for proxy in PROXY_TABLE.get((level, asset_type), []):
            if asset.get(proxy):
                return (proxy, asset[proxy])
    return ("original", asset["original"])
```
The asset record is embedded as a function `String → Option String` (its
dictionary of renditions; `none` = key absent).  Python truthiness of a URL
value (`if asset.get(proxy)`) means: present and non-empty.  Note two source
facts the claim gets wrong: the explicit-rendition branch returns the bare
`asset.get(proxy)` value, not a `(name, url)` pair; and the non-document
family is `asset.get("asset_type", "stream")` — the asset's own type when
present — not always `"stream"`. -/

/-- `assets.PROXY_CASCADE`. -/
def PROXY_CASCADE : List String := ["high", "medium", "low"]

/-- `assets.PROXY_TABLE` as a lookup with the `.get((level, family), [])`
default baked in. -/
def PROXY_TABLE : String → String → List String
  | "high", "stream" => ["h264_2160", "h264_1080_best"]
  | "medium", "stream" => ["h264_720"]
  | "low", "stream" => ["h264_540", "h264_360"]
  | "high", "image" => ["image_high"]
  | "medium", "image" => ["image_full"]
  | "low", "image" => ["image_small"]
  | _, _ => []

/-- Python errors surfaced by the embedded code. -/
inductive PyErr : Type
  | keyError : String → PyErr
  | typeError : String → PyErr
  | exception : String → PyErr
  | attributeError : String → PyErr
  | zeroDivisionError : PyErr
  deriving DecidableEq

/-- What `get_proxy` can return: a `(rendition name, url)` tuple, or — on the
explicit-rendition branch — the bare `asset.get(proxy)` value. -/
inductive ProxyResult : Type
  | pair : String → String → ProxyResult
  | bare : Option String → ProxyResult
  deriving DecidableEq

/-- The body of the inner cascade loop for one candidate:
`if asset.get(proxy): return (proxy, asset[proxy])`. -/
def proxy_candidate (asset : String → Option String) (cand : String) : Option (String × String) :=
  match asset cand with
  | some u => if u == "" then none else some (cand, u)
  | none => none

/-- The double loop `for level in PROXY_CASCADE[idx:]: for proxy in
PROXY_TABLE.get((level, asset_type), []): ...`, returning the first hit. -/
def proxy_cascade_lookup (asset : String → Option String) (asset_type : String)
    (levels : List String) : Option (String × String) :=
  levels.findSome? (fun level => (PROXY_TABLE level asset_type).findSome? (proxy_candidate asset))

/-- The family computed at the top of `get_proxy`:
`"image" if asset.get("asset_type") == "document" else
asset.get("asset_type", "stream")` (hoisted into a named helper so theorems
can speak about it; the expression is the source's, verbatim). -/
def proxy_asset_type (asset : String → Option String) : String :=
  if asset "asset_type" == some "document" then "image"
  else (asset "asset_type").getD "stream"

/-- Shallow embedding of `assets.get_proxy`.  `proxy = none` models Python
`None` (as passed by `download_stream`'s default). -/
def get_proxy (asset : String → Option String) (proxy : Option String) :
    Except PyErr ProxyResult :=
  if proxy == none || proxy == some "" || proxy == some "original" then
    match asset "original" with
    | none => .error (.keyError "original")
    | some u => .ok (.pair "original" u)
  else
    let p := proxy.getD ""
    if p ∈ PROXY_CASCADE then
      match proxy_cascade_lookup asset (proxy_asset_type asset)
          (PROXY_CASCADE.dropWhile (fun l => l != p)) with
      | some r => .ok (.pair r.1 r.2)
      | none =>
        match asset "original" with
        | none => .error (.keyError "original")
        | some u => .ok (.pair "original" u)
    else .ok (.bare (asset p))

/-- The full candidate walk for a tier request `p`: the tiers from `p`
toward `"low"`, each expanded to its `(tier, family)` candidate list, in
order.  The cascade inspects exactly these names, in exactly this order. -/
def proxy_walk_candidates (asset : String → Option String) (p : String) : List String :=
  ((PROXY_CASCADE.dropWhile (fun l => l != p)).map
    (fun level => PROXY_TABLE level (proxy_asset_type asset))).flatten

/-- A concrete asset carrying an explicit rendition `h264_720` and an
original URL. -/
def proxyCexAsset : String → Option String :=
  fun k => (([("h264_720", "http_u"), ("original", "http_orig")] :
    List (String × String)).lookup k)

/-- C7 counterexample: requesting the explicit named rendition `h264_720`
returns the bare dictionary value `asset.get("h264_720")`, not a
`(name, url)` pair as the claim states (the callers unpack the result into
two variables, which would fail on this branch). -/
theorem get_proxy_pair_claim_cex :
    get_proxy proxyCexAsset (some "h264_720") = .ok (.bare (some "http_u"))
    ∧ ¬ ∃ n u, get_proxy proxyCexAsset (some "h264_720") = .ok (.pair n u) := by
  refine ⟨by rfl, ?_⟩
  rintro ⟨n, u, h⟩
  rw [show get_proxy proxyCexAsset (some "h264_720") = .ok (.bare (some "http_u")) from rfl] at h
  exact ProxyResult.noConfusion (Except.ok.inj h)

theorem findSome?_append_cases {γ δ : Type} (l1 l2 : List γ) (f : γ → Option δ) :
    (l1 ++ l2).findSome? f
      = match l1.findSome? f with
        | some r => some r
        | none => l2.findSome? f := by
  induction l1 with
  | nil => rfl
  | cons x xs ih =>
    rw [List.cons_append, List.findSome?_cons, List.findSome?_cons]
    cases hfx : f x with
    | some b => rfl
    | none => exact ih

theorem findSome?_map_flatten {β γ δ : Type} (l : List β) (g : β → List γ) (f : γ → Option δ) :
    ((l.map g).flatten).findSome? f = l.findSome? (fun x => (g x).findSome? f) := by
  induction l with
  | nil => rfl
  | cons x xs ih =>
    rw [List.map_cons, List.flatten_cons, findSome?_append_cases, List.findSome?_cons, ih]
    cases List.findSome? f (g x) with
    | none => rfl
    | some r => rfl

theorem findSome?_eq_some_of_first {γ δ : Type} (f : γ → Option δ) :
    ∀ (l : List γ) (i : ℕ) (hi : i < l.length),
    (∀ j, ∀ hj : j < i, f (l.get ⟨j, lt_trans hj hi⟩) = none) →
    ∀ r, f (l.get ⟨i, hi⟩) = some r → l.findSome? f = some r := by
  intro l
  induction l with
  | nil =>
    intro i hi
    exact absurd hi (by simp)
  | cons x xs ih =>
    intro i hi hmiss r hr
    cases i with
    | zero =>
      have hx : f x = some r := hr
      rw [List.findSome?_cons, hx]
    | succ j =>
      have h0 : f x = none := hmiss 0 (Nat.succ_pos j)
      rw [List.findSome?_cons, h0]
      exact ih j (by simpa using hi) (fun j2 hj2 => hmiss (j2 + 1) (by omega)) r hr

theorem proxy_candidate_eq_none (asset : String → Option String) (c : String)
    (h : asset c = none ∨ asset c = some "") : proxy_candidate asset c = none := by
  unfold proxy_candidate
  rcases h with h | h <;> rw [h] <;> rfl

theorem proxy_candidate_eq_some (asset : String → Option String) (c v : String)
    (hv : asset c = some v) (hvne : v ≠ "") : proxy_candidate asset c = some (c, v) := by
  unfold proxy_candidate
  rw [hv]
  simp [hvne]

theorem proxy_cascade_lookup_eq_walk (asset : String → Option String) (p : String) :
    proxy_cascade_lookup asset (proxy_asset_type asset)
        (PROXY_CASCADE.dropWhile (fun l => l != p))
      = (proxy_walk_candidates asset p).findSome? (proxy_candidate asset) := by
  unfold proxy_cascade_lookup proxy_walk_candidates
  rw [findSome?_map_flatten]

/-- C7 (amended): `original` (or an absent/empty request) returns the pair
`("original", asset["original"])`; an explicit non-tier rendition name is
looked up with `asset.get` and returned bare, with no cascade; a tier request
`p ∈ {high, medium, low}` resolves the family (`image` for a document asset,
otherwise the asset's own `asset_type` defaulting to `stream`), walks the
tiers from `p` toward `low` through the `(tier, family)` candidate table —
`proxy_walk_candidates` — and returns the FIRST candidate present and
non-empty on the asset as a `(name, url)` pair, falling back to
`("original", asset["original"])` when every candidate of every walked tier
is absent or empty.  The last two conjuncts instantiate the walk at the
spec's stream example (`high` falling through `h264_2160` to
`h264_1080_best`) and at a document asset requested at `medium` resolving in
the `image` family. -/
theorem get_proxy_spec (asset : String → Option String) (u : String)
    (horig : asset "original" = some u) :
    (get_proxy asset none = .ok (.pair "original" u)
      ∧ get_proxy asset (some "") = .ok (.pair "original" u)
      ∧ get_proxy asset (some "original") = .ok (.pair "original" u))
    ∧ (∀ p, p ∉ PROXY_CASCADE → p ≠ "" → p ≠ "original" →
        get_proxy asset (some p) = .ok (.bare (asset p)))
    ∧ (∀ p, p ∈ PROXY_CASCADE →
        (∀ i, ∀ hi : i < (proxy_walk_candidates asset p).length,
          (∀ j, ∀ hj : j < i,
            asset ((proxy_walk_candidates asset p).get ⟨j, lt_trans hj hi⟩) = none
            ∨ asset ((proxy_walk_candidates asset p).get ⟨j, lt_trans hj hi⟩) = some "") →
          ∀ v, asset ((proxy_walk_candidates asset p).get ⟨i, hi⟩) = some v → v ≠ "" →
          get_proxy asset (some p)
            = .ok (.pair ((proxy_walk_candidates asset p).get ⟨i, hi⟩) v))
        ∧ ((∀ c ∈ proxy_walk_candidates asset p, asset c = none ∨ asset c = some "") →
            get_proxy asset (some p) = .ok (.pair "original" u)))
    ∧ ((asset "asset_type" = none ∨ asset "asset_type" = some "stream") →
        asset "h264_2160" = none →
        ∀ v, asset "h264_1080_best" = some v → v ≠ "" →
        get_proxy asset (some "high") = .ok (.pair "h264_1080_best" v))
    ∧ (∀ v, asset "asset_type" = some "document" → asset "image_full" = some v → v ≠ "" →
        get_proxy asset (some "medium") = .ok (.pair "image_full" v)) := by
  refine ⟨⟨?_, ?_, ?_⟩, ?_, ?_, ?_, ?_⟩
  · unfold get_proxy; rw [horig]; rfl
  · unfold get_proxy; rw [horig]; rfl
  · unfold get_proxy; rw [horig]; rfl
  · intro p hp hp1 hp2
    unfold get_proxy
    have h1 : ((some p : Option String) == none || some p == some ""
        || some p == some "original") = false := by
      simp only [Bool.or_eq_false_iff, beq_eq_false_iff_ne, ne_eq]
      refine ⟨⟨by simp, by simp [hp1]⟩, by simp [hp2]⟩
    rw [h1]
    simp only [Bool.false_eq_true, if_false, Option.getD_some]
    rw [if_neg hp]
  · intro p hp
    have hpc : p = "high" ∨ p = "medium" ∨ p = "low" := by
      simpa [PROXY_CASCADE] using hp
    have hp1 : p ≠ "" := by rcases hpc with rfl | rfl | rfl <;> decide
    have hp2 : p ≠ "original" := by rcases hpc with rfl | rfl | rfl <;> decide
    have hne : ((some p : Option String) == none || some p == some ""
        || some p == some "original") = false := by
      simp only [Bool.or_eq_false_iff, beq_eq_false_iff_ne, ne_eq]
      refine ⟨⟨by simp, by simp [hp1]⟩, by simp [hp2]⟩
    constructor
    · intro i hi hmiss v hv hvne
      unfold get_proxy
      rw [hne]
      simp only [Bool.false_eq_true, if_false, Option.getD_some]
      rw [if_pos hp, proxy_cascade_lookup_eq_walk]
      have hfind : (proxy_walk_candidates asset p).findSome? (proxy_candidate asset)
          = some ((proxy_walk_candidates asset p).get ⟨i, hi⟩, v) :=
        findSome?_eq_some_of_first (proxy_candidate asset) _ i hi
          (fun j hj => proxy_candidate_eq_none asset _ (hmiss j hj))
          _ (proxy_candidate_eq_some asset _ v hv hvne)
      rw [hfind]
    · intro hall
      unfold get_proxy
      rw [hne]
      simp only [Bool.false_eq_true, if_false, Option.getD_some]
      rw [if_pos hp, proxy_cascade_lookup_eq_walk]
      have hfind : (proxy_walk_candidates asset p).findSome? (proxy_candidate asset) = none :=
        List.findSome?_eq_none_iff.mpr
          (fun c hc => proxy_candidate_eq_none asset c (hall c hc))
      rw [hfind, horig]
  · intro hfam h2160 v hv hvne
    unfold get_proxy
    have hne : ((some "high" : Option String) == none || some "high" == some ""
        || some "high" == some "original") = false := by rfl
    rw [hne]
    simp only [Bool.false_eq_true, if_false, Option.getD_some]
    rw [if_pos (by simp [PROXY_CASCADE])]
    have hfam' : proxy_asset_type asset = "stream" := by
      unfold proxy_asset_type
      rcases hfam with hc | hc <;> rw [hc] <;> rfl
    rw [hfam']
    have hdrop : PROXY_CASCADE.dropWhile (fun l => l != "high") = PROXY_CASCADE := by rfl
    rw [hdrop]
    have hcand : proxy_candidate asset "h264_2160" = none :=
      proxy_candidate_eq_none asset _ (Or.inl h2160)
    have hcand2 : proxy_candidate asset "h264_1080_best" = some ("h264_1080_best", v) :=
      proxy_candidate_eq_some asset _ v hv hvne
    unfold proxy_cascade_lookup
    rw [PROXY_CASCADE]
    rw [List.findSome?_cons]
    rw [show PROXY_TABLE "high" "stream" = ["h264_2160", "h264_1080_best"] from rfl]
    rw [List.findSome?_cons, hcand, List.findSome?_cons, hcand2]
  · intro v hdoc hv hvne
    unfold get_proxy
    have hne : ((some "medium" : Option String) == none || some "medium" == some ""
        || some "medium" == some "original") = false := by rfl
    rw [hne]
    simp only [Bool.false_eq_true, if_false, Option.getD_some]
    rw [if_pos (by simp [PROXY_CASCADE])]
    have hfam' : proxy_asset_type asset = "image" := by
      unfold proxy_asset_type
      rw [hdoc]
      rfl
    rw [hfam']
    have hdrop : PROXY_CASCADE.dropWhile (fun l => l != "medium") = ["medium", "low"] := by rfl
    rw [hdrop]
    have hcand : proxy_candidate asset "image_full" = some ("image_full", v) :=
      proxy_candidate_eq_some asset _ v hv hvne
    unfold proxy_cascade_lookup
    rw [List.findSome?_cons,
      show PROXY_TABLE "medium" "image" = ["image_full"] from rfl,
      List.findSome?_cons, hcand]

/-- Witness for `get_proxy_spec` on a stream asset holding `h264_1080_best`
and `original`. -/
theorem get_proxy_spec_witness :
    ((fun k => (([("h264_1080_best", "hurl"), ("original", "ourl")] :
        List (String × String)).lookup k)) "original" = some "ourl")
    ∧ get_proxy (fun k => (([("h264_1080_best", "hurl"), ("original", "ourl")] :
        List (String × String)).lookup k)) (some "high")
      = .ok (.pair "h264_1080_best" "hurl") :=
  ⟨rfl, ((get_proxy_spec (fun k => (([("h264_1080_best", "hurl"), ("original", "ourl")] :
      List (String × String)).lookup k)) "ourl" rfl).2.2.2.1
    (Or.inl rfl) rfl "hurl" rfl (by decide))⟩

/-! ## `FrameioUploader.upload` (`uploader.py`)

```
def upload(self):
    chunk_offsets = self._calculate_chunks()
    ...
    with tqdm(**progress_bar_args) as progress_bar:
        ...
        with concurrent.futures.ThreadPoolExecutor(max_workers=5) as executor:
            start = time.start()
            for chunk_id in range(self.chunks_num):
                ...
```
The function body contains no `return` statement, and its very first action
inside the executor block — before any chunk is submitted — is
`start = time.start()`.  The Python `time` module has no attribute `start`
(the author presumably meant `time.time()`), so every call raises
`AttributeError` at that line; `_calculate_chunks` itself raises
`ZeroDivisionError` first when the URL count is `0`.  Even if those lines
were reached and passed, the function would fall off its end and return
`None`, never a boolean; its caller `upload_file` tests `result is True`. -/

/-- `FrameioUploader._calculate_chunks` as a fallible call: `filesize /
chunks_num` raises `ZeroDivisionError` when there are no upload URLs. -/
def calculate_chunks (S N : ℕ) : Except PyErr (List ℕ) :=
  if N = 0 then .error .zeroDivisionError else .ok (chunk_offsets S N)

/-- The attribute access `time.start()`: always an `AttributeError`. -/
def time_start : Except PyErr ℚ :=
  .error (.attributeError "module time has no attribute start")

/-- Shallow embedding of `FrameioUploader.upload` for a job of `S` bytes over
`N` presigned URLs, up to its first failure point (everything after
`start = time.start()` is unreachable; had the body completed, the missing
`return` would produce `None`, embedded as `Unit`). -/
def FrameioUploader_upload (S N : ℕ) : Except PyErr Unit := do
  let _chunk_offsets ← calculate_chunks S N
  let _start ← time_start
  pure ()

/-- C4: for every transfer job, `upload()` raises — `ZeroDivisionError` for a
zero URL count, otherwise `AttributeError` at `time.start()` — and in
particular never returns a boolean (its return type in the embedding is
`Unit`, since the body has no `return` statement). -/
theorem frameio_upload_always_raises (S N : ℕ) :
    FrameioUploader_upload S N
      = .error (if N = 0 then PyErr.zeroDivisionError
          else PyErr.attributeError "module time has no attribute start")
    ∧ ∀ u, FrameioUploader_upload S N ≠ .ok u := by
  constructor
  · unfold FrameioUploader_upload calculate_chunks time_start
    by_cases hN : N = 0
    · rw [if_pos hN, if_pos hN]
      rfl
    · rw [if_neg hN, if_neg hN]
      rfl
  · intro u hu
    revert hu
    unfold FrameioUploader_upload calculate_chunks time_start
    by_cases hN : N = 0
    · rw [if_pos hN]
      intro hu
      exact Except.noConfusion hu
    · rw [if_neg hN]
      intro hu
      exact Except.noConfusion hu

/-! ## Rate-Limited Executor (`utils.exec_stream`)

```
def exec_stream(callable, iterable, sync=lambda _: False, capacity=10, rate=10):
    limiter = Limiter(capacity, rate, MemoryStorage())
    futures = set()
    def execute(operation):
        return (operation, callable(operation))
    with concurrent.futures.ThreadPoolExecutor(max_workers=capacity) as executor:
        while True:
            if not limiter.consume("stream", 1):
                start = int(time.time())
                done, pending = concurrent.futures.wait(futures, FIRST_COMPLETED)
                for future in done:
                    yield future.result()
                futures = pending
                if (int(time.time()) - start) < 1:
                    time.sleep(1.0 / rate)
            operation = next(iterable, None)
            if not operation:
                done, _ = concurrent.futures.wait(futures)
                for future in done:
                    yield future.result()
                break
            if sync(operation):
                yield execute(operation)
                continue
            futures.add(executor.submit(execute, operation))
```
The worker is embedded as `α → Except E β`: `execute` does not catch
exceptions, so a sync item's exception propagates at `yield execute(...)`,
and an async item's exception is stored in its future and re-raised by
`future.result()` at the yield site — either way the generator itself raises
and the result stream ends.  Wall-clock timing and the token bucket are
abstracted into an oracle: `token n` says whether the limiter had a token at
loop iteration `n`, `pick n pending` splits the in-flight set into the
completed futures (drained and yielded, in completion order) and the rest,
and `finalPerm pending` gives the iteration order of the final full drain.
`operation = next(iterable, None); if not operation:` is a truthiness test,
not an exhaustion test: it fires both when the producer is exhausted
(`next` returned `None`) and when the produced item itself is falsy, so a
falsy work item drains the in-flight futures, ends the stream, and silently
drops the item and everything after it.  The item's truthiness is embedded
as an explicit predicate `truthy : α → Bool`; producer exhaustion is the
`items = []` case.  The embedding returns the list of yielded
`(operation, value)` pairs together with the exception, if any, that escaped
the generator. -/

/-- The Python truthiness of an integer: `not 0` is `True`. -/
def nat_truthy : ℕ → Bool := fun n => n != 0

/-- Scheduling oracle for `exec_stream`: all the timing/completion-order
nondeterminism of the thread pool and token bucket. -/
structure ExecOracle (α : Type) : Type where
  token : ℕ → Bool
  pick : ℕ → List α → List α × List α
  finalPerm : List α → List α

/-- An oracle is valid if each drain partitions the in-flight set (up to
order) and the final drain yields exactly the in-flight set (up to order). -/
def ValidOracle {α : Type} (o : ExecOracle α) : Prop :=
  (∀ n fs, ((o.pick n fs).1 ++ (o.pick n fs).2).Perm fs)
  ∧ (∀ fs, (o.finalPerm fs).Perm fs)

/-- Yield the results of a list of completed futures in order:
`for future in done: yield future.result()` — the first stored exception
re-raises and ends the stream. -/
def yield_results {α β E : Type} (worker : α → Except E β) :
    List α → List (α × β) × Option E
  | [] => ([], none)
  | x :: xs =>
    match worker x with
    | .error e => ([], some e)
    | .ok b =>
      let r := yield_results worker xs
      ((x, b) :: r.1, r.2)

/-- The main loop of `exec_stream`: `items` is what remains of the producer,
`pending` the submitted-but-not-drained futures (in submission order), `n`
the loop iteration.  A falsy item (`if not operation:`, truthiness — not an
exhaustion test) behaves exactly like producer exhaustion: the in-flight
futures are drained and the loop breaks, dropping the falsy item and every
item after it. -/
def exec_stream_go {α β E : Type} (worker : α → Except E β) (sync truthy : α → Bool)
    (o : ExecOracle α) : List α → List α → ℕ → List (α × β) × Option E
  | items, pending, n =>
    let drained := if o.token n then ([], pending) else o.pick n pending
    let ys := yield_results worker drained.1
    match ys.2 with
    | some e => (ys.1, some e)
    | none =>
      match items with
      | [] =>
        let fin := yield_results worker (o.finalPerm drained.2)
        (ys.1 ++ fin.1, fin.2)
      | it :: rest =>
        if truthy it then
          if sync it then
            match worker it with
            | .error e => (ys.1, some e)
            | .ok b =>
              let tail := exec_stream_go worker sync truthy o rest drained.2 (n + 1)
              (ys.1 ++ (it, b) :: tail.1, tail.2)
          else
            let tail := exec_stream_go worker sync truthy o rest (drained.2 ++ [it]) (n + 1)
            (ys.1 ++ tail.1, tail.2)
        else
          let fin := yield_results worker (o.finalPerm drained.2)
          (ys.1 ++ fin.1, fin.2)

/-- `utils.exec_stream`: starts with no futures in flight. -/
def exec_stream {α β E : Type} (worker : α → Except E β) (sync truthy : α → Bool)
    (o : ExecOracle α) (items : List α) : List (α × β) × Option E :=
  exec_stream_go worker sync truthy o items [] 0

/-- The default `sync=lambda _: False` of `exec_stream`. -/
def exec_stream_default_sync {α : Type} : α → Bool := fun _ => false

theorem yield_results_ok {α β E : Type} (worker : α → Except E β) (l : List α)
    (h : ∀ x ∈ l, ∃ b, worker x = .ok b) :
    (yield_results worker l).2 = none
    ∧ ((yield_results worker l).1.map Prod.fst) = l
    ∧ (∀ p ∈ (yield_results worker l).1, worker p.1 = .ok p.2) := by
  induction l with
  | nil => exact ⟨rfl, rfl, fun p hp => absurd hp (List.not_mem_nil p)⟩
  | cons x xs ih =>
    obtain ⟨b, hb⟩ := h x (List.mem_cons_self x xs)
    obtain ⟨ih1, ih2, ih3⟩ := ih (fun y hy => h y (List.mem_cons_of_mem x hy))
    rw [yield_results, hb]
    refine ⟨ih1, ?_, ?_⟩
    · simp only [List.map_cons, ih2]
    · intro p hp
      rcases List.mem_cons.mp hp with hp | hp
      · subst hp; exact hb
      · exact ih3 p hp

theorem yield_results_err {α β E : Type} (worker : α → Except E β) (l : List α) (e : E)
    (h : (yield_results worker l).2 = some e) : ∃ x ∈ l, worker x = .error e := by
  induction l with
  | nil => cases h
  | cons x xs ih =>
    revert h
    rw [yield_results]
    cases hw : worker x with
    | error e' =>
      intro h
      cases h
      exact ⟨x, List.mem_cons_self x xs, hw⟩
    | ok b =>
      intro h
      obtain ⟨y, hy, hwy⟩ := ih h
      exact ⟨y, List.mem_cons_of_mem x hy, hwy⟩

theorem exec_stream_go_ok {α β E : Type} (worker : α → Except E β) (sync truthy : α → Bool)
    (o : ExecOracle α) (ho : ValidOracle o)
    (items pending : List α) (n : ℕ)
    (htruthy : ∀ x ∈ items, truthy x = true)
    (h : ∀ x, x ∈ items ∨ x ∈ pending → ∃ b, worker x = .ok b) :
    (exec_stream_go worker sync truthy o items pending n).2 = none
    ∧ ((exec_stream_go worker sync truthy o items pending n).1.map
        Prod.fst).Perm (pending ++ items)
    ∧ (∀ p ∈ (exec_stream_go worker sync truthy o items pending n).1,
        worker p.1 = .ok p.2) := by
  induction items generalizing pending n with
  | nil =>
    rw [exec_stream_go]
    have hpart : ((if o.token n then (([], pending) : List α × List α)
        else o.pick n pending).1 ++ (if o.token n then ([], pending)
          else o.pick n pending).2).Perm pending := by
      by_cases ht : o.token n
      · rw [if_pos ht]; exact List.Perm.refl pending
      · rw [if_neg ht]; exact ho.1 n pending
    set dr := if o.token n then (([], pending) : List α × List α) else o.pick n pending
    have hd1 : ∀ x ∈ dr.1, ∃ b, worker x = .ok b := by
      intro x hx
      exact h x (Or.inr (hpart.subset (List.mem_append_left _ hx)))
    have hd2 : ∀ x ∈ o.finalPerm dr.2, ∃ b, worker x = .ok b := by
      intro x hx
      have hx2 := (ho.2 dr.2).subset hx
      exact h x (Or.inr (hpart.subset (List.mem_append_right _ hx2)))
    obtain ⟨hy1, hy2, hy3⟩ := yield_results_ok worker dr.1 hd1
    obtain ⟨hf1, hf2, hf3⟩ := yield_results_ok worker (o.finalPerm dr.2) hd2
    rw [hy1]
    refine ⟨hf1, ?_, ?_⟩
    · rw [List.map_append, hy2, hf2, List.append_nil]
      exact ((ho.2 dr.2).append_left dr.1).trans hpart
    · intro p hp
      rcases List.mem_append.mp hp with hp | hp
      · exact hy3 p hp
      · exact hf3 p hp
  | cons it rest ih =>
    rw [exec_stream_go]
    have hpart : ((if o.token n then (([], pending) : List α × List α)
        else o.pick n pending).1 ++ (if o.token n then ([], pending)
          else o.pick n pending).2).Perm pending := by
      by_cases ht : o.token n
      · rw [if_pos ht]; exact List.Perm.refl pending
      · rw [if_neg ht]; exact ho.1 n pending
    set dr := if o.token n then (([], pending) : List α × List α) else o.pick n pending
    have hd1 : ∀ x ∈ dr.1, ∃ b, worker x = .ok b := by
      intro x hx
      exact h x (Or.inr (hpart.subset (List.mem_append_left _ hx)))
    obtain ⟨hy1, hy2, hy3⟩ := yield_results_ok worker dr.1 hd1
    rw [hy1]
    have hdr2 : ∀ x ∈ dr.2, x ∈ pending :=
      fun x hx => hpart.subset (List.mem_append_right _ hx)
    rw [if_pos (htruthy it (List.mem_cons_self it rest))]
    have htr : ∀ x ∈ rest, truthy x = true :=
      fun x hx => htruthy x (List.mem_cons_of_mem it hx)
    by_cases hs : sync it
    · rw [if_pos hs]
      obtain ⟨b, hb⟩ := h it (Or.inl (List.mem_cons_self it rest))
      rw [hb]
      obtain ⟨ih1, ih2, ih3⟩ := ih dr.2 (n + 1) htr (by
        intro x hx
        rcases hx with hx | hx
        · exact h x (Or.inl (List.mem_cons_of_mem it hx))
        · exact h x (Or.inr (hdr2 x hx)))
      refine ⟨ih1, ?_, ?_⟩
      · rw [List.map_append, hy2, List.map_cons]
        calc (dr.1 ++ (it, b).1 ::
              (exec_stream_go worker sync truthy o rest dr.2 (n + 1)).1.map Prod.fst)
            = dr.1 ++ it ::
              (exec_stream_go worker sync truthy o rest dr.2 (n + 1)).1.map Prod.fst := rfl
          _ ~ dr.1 ++ it :: (dr.2 ++ rest) := (ih2.cons it).append_left dr.1
          _ = dr.1 ++ ((it :: dr.2) ++ rest) := by simp
          _ ~ dr.1 ++ ((dr.2 ++ [it]) ++ rest) :=
              (((List.perm_append_singleton it dr.2).symm.append_right rest).append_left dr.1)
          _ = (dr.1 ++ dr.2) ++ (it :: rest) := by simp
          _ ~ pending ++ it :: rest := hpart.append_right (it :: rest)
      · intro p hp
        rcases List.mem_append.mp hp with hp | hp
        · exact hy3 p hp
        · rcases List.mem_cons.mp hp with hp | hp
          · subst hp; exact hb
          · exact ih3 p hp
    · rw [if_neg hs]
      obtain ⟨ih1, ih2, ih3⟩ := ih (dr.2 ++ [it]) (n + 1) htr (by
        intro x hx
        rcases hx with hx | hx
        · exact h x (Or.inl (List.mem_cons_of_mem it hx))
        · rcases List.mem_append.mp hx with hx | hx
          · exact h x (Or.inr (hdr2 x hx))
          · rw [List.mem_singleton] at hx
            subst hx
            exact h x (Or.inl (List.mem_cons_self x rest)))
      refine ⟨ih1, ?_, ?_⟩
      · rw [List.map_append, hy2]
        calc (dr.1 ++
              (exec_stream_go worker sync truthy o rest (dr.2 ++ [it]) (n + 1)).1.map Prod.fst)
            ~ dr.1 ++ ((dr.2 ++ [it]) ++ rest) := ih2.append_left dr.1
          _ = (dr.1 ++ dr.2) ++ (it :: rest) := by simp
          _ ~ pending ++ it :: rest := hpart.append_right (it :: rest)
      · intro p hp
        rcases List.mem_append.mp hp with hp | hp
        · exact hy3 p hp
        · exact ih3 p hp

theorem exec_stream_go_err {α β E : Type} (worker : α → Except E β) (sync truthy : α → Bool)
    (o : ExecOracle α) (ho : ValidOracle o)
    (items pending : List α) (n : ℕ) (e : E)
    (h : (exec_stream_go worker sync truthy o items pending n).2 = some e) :
    ∃ x, (x ∈ items ∨ x ∈ pending) ∧ worker x = .error e := by
  induction items generalizing pending n with
  | nil =>
    rw [exec_stream_go] at h
    have hpart : ((if o.token n then (([], pending) : List α × List α)
        else o.pick n pending).1 ++ (if o.token n then ([], pending)
          else o.pick n pending).2).Perm pending := by
      by_cases ht : o.token n
      · rw [if_pos ht]; exact List.Perm.refl pending
      · rw [if_neg ht]; exact ho.1 n pending
    set dr := if o.token n then (([], pending) : List α × List α) else o.pick n pending
    cases hy : (yield_results worker dr.1).2 with
    | some e2 =>
      rw [hy] at h
      have h2 : (some e2 : Option E) = some e := h
      cases h2
      obtain ⟨x, hx, hwx⟩ := yield_results_err worker dr.1 e hy
      exact ⟨x, Or.inr (hpart.subset (List.mem_append_left _ hx)), hwx⟩
    | none =>
      rw [hy] at h
      have h2 : (yield_results worker (o.finalPerm dr.2)).2 = some e := h
      obtain ⟨x, hx, hwx⟩ := yield_results_err worker (o.finalPerm dr.2) e h2
      have hx2 := (ho.2 dr.2).subset hx
      exact ⟨x, Or.inr (hpart.subset (List.mem_append_right _ hx2)), hwx⟩
  | cons it rest ih =>
    rw [exec_stream_go] at h
    have hpart : ((if o.token n then (([], pending) : List α × List α)
        else o.pick n pending).1 ++ (if o.token n then ([], pending)
          else o.pick n pending).2).Perm pending := by
      by_cases ht : o.token n
      · rw [if_pos ht]; exact List.Perm.refl pending
      · rw [if_neg ht]; exact ho.1 n pending
    set dr := if o.token n then (([], pending) : List α × List α) else o.pick n pending
    have hdr2 : ∀ x ∈ dr.2, x ∈ pending :=
      fun x hx => hpart.subset (List.mem_append_right _ hx)
    cases hy : (yield_results worker dr.1).2 with
    | some e2 =>
      rw [hy] at h
      have h2 : (some e2 : Option E) = some e := h
      cases h2
      obtain ⟨x, hx, hwx⟩ := yield_results_err worker dr.1 e hy
      exact ⟨x, Or.inr (hpart.subset (List.mem_append_left _ hx)), hwx⟩
    | none =>
      rw [hy] at h
      cases htt : truthy it with
      | false =>
        rw [htt] at h
        have h2 : (yield_results worker (o.finalPerm dr.2)).2 = some e := h
        obtain ⟨x, hx, hwx⟩ := yield_results_err worker (o.finalPerm dr.2) e h2
        have hx2 := (ho.2 dr.2).subset hx
        exact ⟨x, Or.inr (hdr2 x hx2), hwx⟩
      | true =>
        rw [htt] at h
        cases hsy : sync it with
        | true =>
          rw [hsy] at h
          cases hw : worker it with
          | error e2 =>
            rw [hw] at h
            have h2 : (some e2 : Option E) = some e := h
            cases h2
            exact ⟨it, Or.inl (List.mem_cons_self it rest), hw⟩
          | ok b =>
            rw [hw] at h
            have h2 : (exec_stream_go worker sync truthy o rest dr.2 (n + 1)).2 = some e := h
            obtain ⟨x, hx, hwx⟩ := ih dr.2 (n + 1) h2
            rcases hx with hx | hx
            · exact ⟨x, Or.inl (List.mem_cons_of_mem it hx), hwx⟩
            · exact ⟨x, Or.inr (hdr2 x hx), hwx⟩
        | false =>
          rw [hsy] at h
          have h2 : (exec_stream_go worker sync truthy o rest (dr.2 ++ [it]) (n + 1)).2
              = some e := h
          obtain ⟨x, hx, hwx⟩ := ih (dr.2 ++ [it]) (n + 1) h2
          rcases hx with hx | hx
          · exact ⟨x, Or.inl (List.mem_cons_of_mem it hx), hwx⟩
          · rcases List.mem_append.mp hx with hx | hx
            · exact ⟨x, Or.inr (hdr2 x hx), hwx⟩
            · rw [List.mem_singleton] at hx
              subst hx
              exact ⟨x, Or.inl (List.mem_cons_self x rest), hwx⟩

theorem exec_stream_go_const_err {α : Type} (e0 : String) (truthy : α → Bool)
    (o : ExecOracle α)
    (ho : ValidOracle o) (items pending : List α) (n : ℕ)
    (hne : items ≠ [] ∨ pending ≠ []) (htruthy : ∀ x ∈ items, truthy x = true) :
    exec_stream_go (fun _ => (Except.error e0 : Except String Unit))
      exec_stream_default_sync truthy o items pending n = ([], some e0) := by
  induction items generalizing pending n with
  | nil =>
    have hpne : pending ≠ [] := by
      rcases hne with hne | hne
      · exact absurd rfl hne
      · exact hne
    rw [exec_stream_go]
    have hpart : ((if o.token n then (([], pending) : List α × List α)
        else o.pick n pending).1 ++ (if o.token n then ([], pending)
          else o.pick n pending).2).Perm pending := by
      by_cases ht : o.token n
      · rw [if_pos ht]; exact List.Perm.refl pending
      · rw [if_neg ht]; exact ho.1 n pending
    set dr := if o.token n then (([], pending) : List α × List α) else o.pick n pending
    cases hd1 : dr.1 with
    | cons x xs => rfl
    | nil =>
      have hd2 : dr.2 ≠ [] := by
        intro hc
        rw [hd1, hc] at hpart
        exact hpne hpart.symm.eq_nil
      have hfin := ho.2 dr.2
      cases hf : o.finalPerm dr.2 with
      | nil =>
        rw [hf] at hfin
        exact absurd hfin.symm.eq_nil hd2
      | cons y ys => rfl
  | cons it rest ih =>
    rw [exec_stream_go]
    have hpart : ((if o.token n then (([], pending) : List α × List α)
        else o.pick n pending).1 ++ (if o.token n then ([], pending)
          else o.pick n pending).2).Perm pending := by
      by_cases ht : o.token n
      · rw [if_pos ht]; exact List.Perm.refl pending
      · rw [if_neg ht]; exact ho.1 n pending
    set dr := if o.token n then (([], pending) : List α × List α) else o.pick n pending
    cases hd1 : dr.1 with
    | cons x xs => rfl
    | nil =>
      rw [if_pos (htruthy it (List.mem_cons_self it rest))]
      have hrec := ih (dr.2 ++ [it]) (n + 1) (Or.inr (by simp))
        (fun x hx => htruthy x (List.mem_cons_of_mem it hx))
      rw [hrec]
      rfl

/-- Oracle used in the C2 counterexample: the token bucket always has a
token, drains complete everything at once, final drain in submission order. -/
def execCexOracle : ExecOracle ℕ :=
  ⟨fun _ => true, fun _ fs => (fs, []), fun fs => fs⟩

theorem execCexOracle_valid : ValidOracle execCexOracle := by
  constructor
  · intro n fs
    show (fs ++ ([] : List ℕ)).Perm fs
    rw [List.append_nil]
  · intro fs
    exact List.Perm.refl fs

/-- A falsy work item ends the stream at once: with no futures in flight,
nothing is yielded and no exception is raised, whatever the worker, the
remaining items, or the (valid) schedule — `if not operation:` drains and
breaks without ever calling the worker on the falsy item. -/
theorem exec_stream_falsy_drop {α β E : Type} (worker : α → Except E β)
    (sync truthy : α → Bool) (o : ExecOracle α) (ho : ValidOracle o)
    (it : α) (rest : List α) (hf : truthy it = false) :
    exec_stream worker sync truthy o (it :: rest) = ([], none) := by
  obtain ⟨hp1, hp2⟩ := List.append_eq_nil.mp (ho.1 0 []).eq_nil
  have hpick2 : o.pick 0 ([] : List α) = ([], []) := Prod.ext hp1 hp2
  have hfin : o.finalPerm ([] : List α) = [] := (ho.2 []).eq_nil
  unfold exec_stream
  rw [exec_stream_go, hpick2, ite_self, hf]
  show (([] : List (α × β)) ++ (yield_results worker (o.finalPerm ([] : List α))).1,
        (yield_results worker (o.finalPerm ([] : List α))).2)
      = (([] : List (α × β)), (none : Option E))
  rw [hfin]
  rfl

/-- C2 counterexample: a single work item whose worker raises.  Under the
concrete schedule `execCexOracle` the stream yields no result at all for the
item — the generator re-raises the worker's exception (`.2 = some "boom"`)
and terminates, contradicting "surfaced as a failed result for that item
only" and "no single worker exception terminates the whole result stream". -/
theorem exec_stream_exception_claim_cex :
    exec_stream (fun _ : ℕ => (Except.error "boom" : Except String Unit))
      exec_stream_default_sync nat_truthy execCexOracle [7] = ([], some "boom") := by
  rfl

/-- C2 (amended): `exec_stream` does not capture worker exceptions.  Every
exception surfacing from the result stream is some item's worker exception
re-raised (`future.result()` / the inline sync call); a run in which every
item is truthy and every worker succeeds yields exactly the items with their
values (as a permutation, completion-order nondeterminism allowed) and no
exception; for a failing worker on a truthy item the stream terminates with
the exception under every valid schedule, yielding no result for the failed
item; and a falsy leading work item ends the stream at once with no result
and no exception — `if not operation:` (utils.py:381) is a truthiness test,
so the falsy item and everything after it are silently dropped and the
worker is never called on them. -/
theorem exec_stream_error_propagation {α β E : Type} (worker : α → Except E β)
    (sync truthy : α → Bool) (o : ExecOracle α) (ho : ValidOracle o) (items : List α) :
    (∀ e, (exec_stream worker sync truthy o items).2 = some e →
        ∃ x ∈ items, worker x = .error e)
    ∧ ((∀ x ∈ items, truthy x = true) → (∀ x ∈ items, ∃ b, worker x = .ok b) →
        (exec_stream worker sync truthy o items).2 = none
        ∧ ((exec_stream worker sync truthy o items).1.map Prod.fst).Perm items
        ∧ (∀ p ∈ (exec_stream worker sync truthy o items).1, worker p.1 = .ok p.2))
    ∧ (∀ (o2 : ExecOracle ℕ), ValidOracle o2 →
        exec_stream (fun _ : ℕ => (Except.error "boom" : Except String Unit))
          exec_stream_default_sync nat_truthy o2 [7] = ([], some "boom"))
    ∧ (∀ (o2 : ExecOracle ℕ), ValidOracle o2 → ∀ (worker2 : ℕ → Except String ℕ),
        exec_stream worker2 exec_stream_default_sync nat_truthy o2 (0 :: items.map
          (fun _ => 1)) = ([], none)) := by
  refine ⟨?_, ?_, ?_, ?_⟩
  · intro e he
    obtain ⟨x, hx, hwx⟩ := exec_stream_go_err worker sync truthy o ho items [] 0 e he
    rcases hx with hx | hx
    · exact ⟨x, hx, hwx⟩
    · exact absurd hx (List.not_mem_nil x)
  · intro htruthy hok
    obtain ⟨h1, h2, h3⟩ := exec_stream_go_ok worker sync truthy o ho items [] 0 htruthy (by
      intro x hx
      rcases hx with hx | hx
      · exact hok x hx
      · exact absurd hx (List.not_mem_nil x))
    exact ⟨h1, by simpa using h2, h3⟩
  · intro o2 ho2
    exact exec_stream_go_const_err "boom" nat_truthy o2 ho2 [7] [] 0 (Or.inl (by simp))
      (by decide)
  · intro o2 ho2 worker2
    exact exec_stream_falsy_drop worker2 exec_stream_default_sync nat_truthy o2 ho2
      0 (items.map (fun _ => 1)) rfl

/-- Witness for `exec_stream_error_propagation`: two truthy items, both
workers succeed; the stream yields both results and no exception. -/
theorem exec_stream_error_propagation_witness :
    ValidOracle execCexOracle
    ∧ ((∀ e, (exec_stream (fun n : ℕ => (Except.ok (n + 1) : Except String ℕ))
          exec_stream_default_sync nat_truthy execCexOracle [3, 4]).2 = some e →
          ∃ x ∈ [3, 4], (fun n : ℕ => (Except.ok (n + 1) : Except String ℕ)) x = .error e)
      ∧ ((∀ x ∈ [3, 4], nat_truthy x = true) →
          (∀ x ∈ [3, 4], ∃ b, (fun n : ℕ => (Except.ok (n + 1) : Except String ℕ)) x = .ok b) →
          (exec_stream (fun n : ℕ => (Except.ok (n + 1) : Except String ℕ))
            exec_stream_default_sync nat_truthy execCexOracle [3, 4]).2 = none
          ∧ ((exec_stream (fun n : ℕ => (Except.ok (n + 1) : Except String ℕ))
              exec_stream_default_sync nat_truthy execCexOracle [3, 4]).1.map Prod.fst).Perm [3, 4]
          ∧ (∀ p ∈ (exec_stream (fun n : ℕ => (Except.ok (n + 1) : Except String ℕ))
              exec_stream_default_sync nat_truthy execCexOracle [3, 4]).1,
              (fun n : ℕ => (Except.ok (n + 1) : Except String ℕ)) p.1 = .ok p.2))
      ∧ (∀ (o2 : ExecOracle ℕ), ValidOracle o2 →
          exec_stream (fun _ : ℕ => (Except.error "boom" : Except String Unit))
            exec_stream_default_sync nat_truthy o2 [7] = ([], some "boom"))
      ∧ (∀ (o2 : ExecOracle ℕ), ValidOracle o2 → ∀ (worker2 : ℕ → Except String ℕ),
          exec_stream worker2 exec_stream_default_sync nat_truthy o2 (0 :: ([3, 4] : List ℕ).map
            (fun _ => 1)) = ([], none))) :=
  ⟨execCexOracle_valid,
    exec_stream_error_propagation (fun n : ℕ => (Except.ok (n + 1) : Except String ℕ))
      exec_stream_default_sync nat_truthy execCexOracle execCexOracle_valid [3, 4]⟩

/-! ## Tree Walk & Upload Orchestrator (`assets.upload_handler`)

`upload_handler` drives the queued items through the executor:
```
for result in utils.exec_stream(
    process_queued_item,
    queued_items,
    capacity = capacity,
):
    yield result
```
No `sync=` argument is passed, so `exec_stream`'s default
`sync=lambda _: False` applies to every item — folders included.  The worker
`process_queued_item` reads and writes the shared `directories` dict:
```
def process_queued_item(item):
    if directories.get(item.filepath.parent):
        destination_id = directories.get(item.filepath.parent)
    else:
        directories[item.origin_path] = item.destination_id
        destination_id = item.destination_id
    if item.filepath.is_file():
        return upload_file(destination_id, item.filepath, origin_path=item.origin_path)
    elif item.filepath.is_dir():
        folder = create_folder(parent_id=destination_id, folder=item.filepath, ...)
        ...
```
`upload_file` and `create_folder` both immediately shadow their `parent_id`
parameter with a fresh `directories.get(...parent)` lookup; `create_asset`
raises when that lookup is falsy (`None`/empty).  `upload_file` then
constructs `FrameioUploader(asset, filepath, position,
progress_callback=...)`, but `FrameioUploader.__init__` accepts no
`progress_callback` parameter, so the construction raises `TypeError`.
Paths are embedded as segment lists, the filesystem as an oracle
`List String → Option FKind`, and the `directories` dict as an association
list (the source line `directories[item] = folder['id']` keys on the
`QueuedAsset` object itself, a key no path lookup can ever hit, and is
therefore unobservable).  Workers run concurrently; each item's body is
modeled as atomic and a schedule is the order the bodies execute in —
sufficient to exhibit races, since every coarse interleaving is a real one. -/

/-- Kind of a disk entry. -/
inductive FKind : Type
  | file : FKind
  | dir : FKind
  deriving DecidableEq

/-- A `QueuedAssetUpload` as consumed by `upload_handler` (its `type` tag is
used only for progress totals and never read by `process_queued_item`, which
consults the filesystem instead). -/
structure QueuedItem : Type where
  destination_id : String
  filepath : List String
  origin_path : List String
  deriving DecidableEq

/-- `Path.parent`. -/
def parentPath (p : List String) : List String := p.dropLast

/-- The shared mutable state of `upload_handler`: the `directories` dict
(local path → remote id) and a counter standing for the remote service's
fresh-id source. -/
structure UploadState : Type where
  directories : List (List String × String)
  counter : ℕ
  deriving DecidableEq

/-- `directories.get(p)`. -/
def dir_lookup (d : List (List String × String)) (p : List String) : Option String :=
  d.lookup p

/-- `directories[p] = v`. -/
def dir_insert (d : List (List String × String)) (p : List String) (v : String) :
    List (List String × String) :=
  (p, v) :: d

/-- `assets.create_asset`: raises when the parent id or payload is falsy (the
payload dicts at both call sites are non-empty literals, so only the parent
id can trip it); on success the remote service returns a fresh asset. -/
def create_asset (parent_id : Option String) (counter : ℕ) : Except PyErr String :=
  if parent_id = none ∨ parent_id = some "" then
    .error (.exception "Both parent ID and asset must be specified")
  else .ok ("asset_" ++ toString counter)

instance exceptDecEq {ε α : Type} [DecidableEq ε] [DecidableEq α] : DecidableEq (Except ε α)
  | .ok a, .ok b =>
    if h : a = b then isTrue (by rw [h]) else isFalse (fun hc => h (Except.ok.inj hc))
  | .error a, .error b =>
    if h : a = b then isTrue (by rw [h]) else isFalse (fun hc => h (Except.error.inj hc))
  | .ok _, .error _ => isFalse (fun hc => Except.noConfusion hc)
  | .error _, .ok _ => isFalse (fun hc => Except.noConfusion hc)

/-- Outcome of one `process_queued_item` call, instrumented with the
`directories.get(filepath.parent)` value observed inside
`upload_file`/`create_folder` at dispatch time. -/
structure ItemOutcome : Type where
  resolvedParent : Option String
  result : Except PyErr (Option String)
  deriving DecidableEq

/-- Shallow embedding of `process_queued_item` (with `upload_file` and
`create_folder` inlined; progress display and the position tracker carry no
data flow and are omitted). -/
def process_queued_item (fs : List String → Option FKind) (st : UploadState)
    (item : QueuedItem) : UploadState × ItemOutcome :=
  let st1 : UploadState :=
    match dir_lookup st.directories (parentPath item.filepath) with
    | some _ => st
    | none =>
      { st with directories := dir_insert st.directories item.origin_path item.destination_id }
  match fs item.filepath with
  | some .file =>
    let parent := dir_lookup st1.directories (parentPath item.filepath)
    match create_asset parent st1.counter with
    | .error e => (st1, ⟨parent, .error e⟩)
    | .ok _aid =>
      ({ st1 with counter := st1.counter + 1 },
        ⟨parent, .error (.typeError
          "FrameioUploader got an unexpected keyword argument progress_callback")⟩)
  | some .dir =>
    let parent := dir_lookup st1.directories (parentPath item.filepath)
    match create_asset parent st1.counter with
    | .error e => (st1, ⟨parent, .error e⟩)
    | .ok aid =>
      ({ directories := dir_insert st1.directories item.filepath aid,
          counter := st1.counter + 1 },
        ⟨parent, .ok (some aid)⟩)
  | none => (st1, ⟨none, .ok none⟩)

/-- Execute the items' (atomic) bodies in the given schedule order against
the shared state. -/
def run_schedule (fs : List String → Option FKind) :
    UploadState → List QueuedItem → UploadState × List (QueuedItem × ItemOutcome)
  | st, [] => (st, [])
  | st, it :: rest =>
    let r := process_queued_item fs st it
    let rec2 := run_schedule fs r.1 rest
    (rec2.1, (it, r.2) :: rec2.2)

/-- The `sync` predicate in force during `upload_handler`'s `exec_stream`
call: the call site passes none, so the executor default applies. -/
def upload_handler_sync : QueuedItem → Bool := exec_stream_default_sync

/-- A two-entry disk tree: folder `root/sub` containing file
`root/sub/a.txt`, uploaded with destination id `"D"` and origin `root`. -/
def egFS : List String → Option FKind := fun p =>
  if p = ["root", "sub"] then some .dir
  else if p = ["root", "sub", "a.txt"] then some .file
  else none

def egFolderItem : QueuedItem := ⟨"D", ["root", "sub"], ["root"]⟩

def egFileItem : QueuedItem := ⟨"D", ["root", "sub", "a.txt"], ["root"]⟩

/-- C1 counterexample: the discovered folder `root/sub` is NOT a synchronous
work item (`upload_handler` leaves `exec_stream`'s `sync` at its always-false
default), and in the schedule where the file's worker body runs before the
folder's, the file's parent lookup in the Directory Index at dispatch yields
`None` and `create_asset` raises instead of receiving a present parent id. -/
theorem upload_handler_sync_claim_cex :
    upload_handler_sync egFolderItem = false
    ∧ (process_queued_item egFS ⟨[], 0⟩ egFileItem).2.resolvedParent = none
    ∧ (process_queued_item egFS ⟨[], 0⟩ egFileItem).2.result
        = .error (.exception "Both parent ID and asset must be specified") := by
  refine ⟨rfl, by decide, by decide⟩

/-- C1 (amended): every queued item — folder or file — is scheduled
asynchronously (`upload_handler` does not pass `sync`, so the executor
default `lambda _: False` applies to all items), and the Directory Index
invariant is schedule-dependent: in the schedule where the folder's body
completes before the file's, the file's parent lookup at dispatch yields the
folder's freshly created remote id, while in the schedule where the file's
body runs first the lookup yields `None` and the file's remote creation
fails. -/
theorem upload_handler_async_spec :
    (∀ q : QueuedItem, upload_handler_sync q = false)
    ∧ ((run_schedule egFS ⟨[], 0⟩ [egFolderItem, egFileItem]).2.map
        (fun r => r.2.resolvedParent) = [some "D", some "asset_0"])
    ∧ ((run_schedule egFS ⟨[], 0⟩ [egFileItem, egFolderItem]).2.map
        (fun r => r.2.resolvedParent) = [none, some "D"])
    ∧ ((run_schedule egFS ⟨[], 0⟩ [egFileItem, egFolderItem]).2.map
        (fun r => r.2.result)
        = [.error (.exception "Both parent ID and asset must be specified"),
            .ok (some "asset_0")]) :=
  ⟨fun _ => rfl, by decide, by decide, by decide⟩

/-! ## K-way Merge (`utils.merge_streams`)

```
def merge_streams(*streams, key=lambda x: x["id"]):
    heap = []
    fetch = lambda stream: next(stream, None)
    def enqueue(stream, idx):
        head = fetch(stream)
        if not head:
            return
        heapq.heappush(heap, (key(head), idx, stream, head))
    for idx, stream in enumerate(streams):
        enqueue(stream, idx)
    while heap:
        _, idx, stream, result = heapq.heappop(heap)
        yield result
        enqueue(stream, idx)
```
The heap holds at most one entry per stream, keyed by the tuple
`(key(head), idx, ...)`; since the `idx` components are distinct, tuple
comparison never reaches the stream object, and `heappop` extracts the unique
entry minimal in the lexicographic order on `(key, idx)`.  The heap is
embedded as a plain list of entries with `popMin` extracting that minimum.
Note `if not head: return` — Python truthiness, embedded as a `truthy`
predicate: a falsy head (e.g. `0`, `{}`) silently drops the head and the
whole remainder of its stream.  The loop is given explicit fuel
(`heap_size`, the total number of elements still inside the heap), which is
exactly the number of iterations the source performs. -/

/-- One heap entry `(key(head), idx, stream, head)`. -/
structure MergeEntry (α K : Type) : Type where
  key : K
  idx : ℕ
  head : α
  rest : List α
  deriving DecidableEq

/-- Lexicographic order on the comparable prefix `(key, idx)` of a heap
tuple. -/
def pairLE {K : Type} [LinearOrder K] (a b : K × ℕ) : Prop :=
  a.1 < b.1 ∨ (a.1 = b.1 ∧ a.2 ≤ b.2)

instance pairLE_dec {K : Type} [LinearOrder K] (a b : K × ℕ) : Decidable (pairLE a b) :=
  inferInstanceAs (Decidable (a.1 < b.1 ∨ (a.1 = b.1 ∧ a.2 ≤ b.2)))

/-- The comparable prefix of an entry. -/
def entKey {α K : Type} (e : MergeEntry α K) : K × ℕ := (e.key, e.idx)

theorem pairLE_refl {K : Type} [LinearOrder K] (a : K × ℕ) : pairLE a a :=
  Or.inr ⟨rfl, le_refl _⟩

theorem pairLE_trans {K : Type} [LinearOrder K] {a b c : K × ℕ}
    (h1 : pairLE a b) (h2 : pairLE b c) : pairLE a c := by
  rcases h1 with h1 | ⟨h1, h1'⟩ <;> rcases h2 with h2 | ⟨h2, h2'⟩
  · exact Or.inl (lt_trans h1 h2)
  · exact Or.inl (h2 ▸ h1)
  · exact Or.inl (h1 ▸ h2)
  · exact Or.inr ⟨h1.trans h2, h1'.trans h2'⟩

theorem pairLE_total {K : Type} [LinearOrder K] (a b : K × ℕ) : pairLE a b ∨ pairLE b a := by
  rcases lt_trichotomy a.1 b.1 with h | h | h
  · exact Or.inl (Or.inl h)
  · rcases Nat.le_total a.2 b.2 with h2 | h2
    · exact Or.inl (Or.inr ⟨h, h2⟩)
    · exact Or.inr (Or.inr ⟨h.symm, h2⟩)
  · exact Or.inr (Or.inl h)

/-- `heapq.heappop`: extract the entry minimal in `(key, idx)` (unique in the
source because `idx` values in the heap are distinct). -/
def popMin {α K : Type} [LinearOrder K] :
    List (MergeEntry α K) → Option (MergeEntry α K × List (MergeEntry α K))
  | [] => none
  | e :: es =>
    match popMin es with
    | none => some (e, [])
    | some (m, rest) =>
      if pairLE (entKey e) (entKey m) then some (e, es) else some (m, e :: rest)

theorem popMin_eq_none {α K : Type} [LinearOrder K] {l : List (MergeEntry α K)}
    (h : popMin l = none) : l = [] := by
  cases l with
  | nil => rfl
  | cons e es =>
    rw [popMin] at h
    cases h2 : popMin es with
    | none => rw [h2] at h; cases h
    | some p =>
      obtain ⟨m, rest⟩ := p
      rw [h2] at h
      have h3 : (if pairLE (entKey e) (entKey m) then some (e, es) else some (m, e :: rest))
          = (none : Option (MergeEntry α K × List (MergeEntry α K))) := h
      by_cases hle : pairLE (entKey e) (entKey m)
      · rw [if_pos hle] at h3; cases h3
      · rw [if_neg hle] at h3; cases h3

theorem popMin_perm {α K : Type} [LinearOrder K] {l rest : List (MergeEntry α K)}
    {m : MergeEntry α K} (h : popMin l = some (m, rest)) : l.Perm (m :: rest) := by
  induction l generalizing m rest with
  | nil => cases h
  | cons e es ih =>
    rw [popMin] at h
    cases h2 : popMin es with
    | none =>
      rw [h2] at h
      obtain ⟨h3, h4⟩ := Prod.mk.inj (Option.some.inj h)
      subst h3
      subst h4
      rw [popMin_eq_none h2]
    | some p =>
      obtain ⟨m2, rest2⟩ := p
      rw [h2] at h
      have hif : (if pairLE (entKey e) (entKey m2) then some (e, es) else some (m2, e :: rest2))
          = some (m, rest) := h
      by_cases hle : pairLE (entKey e) (entKey m2)
      · rw [if_pos hle] at hif
        obtain ⟨h3, h4⟩ := Prod.mk.inj (Option.some.inj hif)
        subst h3
        subst h4
        exact List.Perm.refl _
      · rw [if_neg hle] at hif
        obtain ⟨h3, h4⟩ := Prod.mk.inj (Option.some.inj hif)
        subst h3
        subst h4
        calc e :: es ~ e :: m2 :: rest2 := (ih h2).cons e
          _ ~ m2 :: e :: rest2 := List.Perm.swap m2 e rest2

theorem popMin_min {α K : Type} [LinearOrder K] {l rest : List (MergeEntry α K)}
    {m : MergeEntry α K} (h : popMin l = some (m, rest)) :
    ∀ x ∈ l, pairLE (entKey m) (entKey x) := by
  induction l generalizing m rest with
  | nil => cases h
  | cons e es ih =>
    rw [popMin] at h
    cases h2 : popMin es with
    | none =>
      rw [h2] at h
      obtain ⟨h3, h4⟩ := Prod.mk.inj (Option.some.inj h)
      subst h3
      intro x hx
      rcases List.mem_cons.mp hx with hx | hx
      · subst hx; exact pairLE_refl _
      · rw [popMin_eq_none h2] at hx
        exact absurd hx (List.not_mem_nil x)
    | some p =>
      obtain ⟨m2, rest2⟩ := p
      rw [h2] at h
      have hif : (if pairLE (entKey e) (entKey m2) then some (e, es) else some (m2, e :: rest2))
          = some (m, rest) := h
      by_cases hle : pairLE (entKey e) (entKey m2)
      · rw [if_pos hle] at hif
        obtain ⟨h3, h4⟩ := Prod.mk.inj (Option.some.inj hif)
        subst h3
        intro x hx
        rcases List.mem_cons.mp hx with hx | hx
        · subst hx; exact pairLE_refl _
        · exact pairLE_trans hle (ih h2 x hx)
      · rw [if_neg hle] at hif
        obtain ⟨h3, h4⟩ := Prod.mk.inj (Option.some.inj hif)
        subst h3
        intro x hx
        rcases List.mem_cons.mp hx with hx | hx
        · rcases pairLE_total (entKey x) (entKey m2) with hc | hc
          · rw [hx] at hc
            exact absurd hc hle
          · exact hc
        · exact ih h2 x hx

/-- `enqueue(stream, idx)`: push `(key(head), idx, head, rest)` unless the
stream is exhausted or its head is falsy (in which case head and rest are
silently dropped). -/
def merge_enqueue {α K : Type} (truthy : α → Bool) (key : α → K) (idx : ℕ)
    (stream : List α) (heap : List (MergeEntry α K)) : List (MergeEntry α K) :=
  match stream with
  | [] => heap
  | h :: t => if truthy h then ⟨key h, idx, h, t⟩ :: heap else heap

/-- Number of elements an entry still holds. -/
def entry_size {α K : Type} (e : MergeEntry α K) : ℕ := 1 + e.rest.length

/-- Total number of elements still inside the heap. -/
def heap_size {α K : Type} (heap : List (MergeEntry α K)) : ℕ :=
  (heap.map entry_size).sum

/-- The `while heap:` loop, annotated with each yielded element's source
stream index; `fuel` bounds the iteration count (instantiated with
`heap_size`, which is exact). -/
def merge_loop {α K : Type} [LinearOrder K] (truthy : α → Bool) (key : α → K) :
    ℕ → List (MergeEntry α K) → List (α × ℕ)
  | 0, _ => []
  | fuel + 1, heap =>
    match popMin heap with
    | none => []
    | some (e, rest) =>
      (e.head, e.idx) :: merge_loop truthy key fuel (merge_enqueue truthy key e.idx e.rest rest)

/-- `for idx, stream in enumerate(streams): enqueue(stream, idx)`. -/
def merge_init_go {α K : Type} (truthy : α → Bool) (key : α → K) :
    ℕ → List (List α) → List (MergeEntry α K) → List (MergeEntry α K)
  | _, [], heap => heap
  | idx, s :: ss, heap => merge_init_go truthy key (idx + 1) ss (merge_enqueue truthy key idx s heap)

/-- The initial heap. -/
def merge_init {α K : Type} (truthy : α → Bool) (key : α → K) (streams : List (List α)) :
    List (MergeEntry α K) :=
  merge_init_go truthy key 0 streams []

/-- Shallow embedding of `utils.merge_streams` over finite streams. -/
def merge_streams {α K : Type} [LinearOrder K] (truthy : α → Bool) (key : α → K)
    (streams : List (List α)) : List α :=
  (merge_loop truthy key (heap_size (merge_init truthy key streams))
    (merge_init truthy key streams)).map Prod.fst

/-- Invariant of a heap entry: its stored key is its head's key, the head
followed by the rest of its stream is sorted by the key function, and every
element it still holds is truthy. -/
def EntryInv {α K : Type} [LinearOrder K] (truthy : α → Bool) (key : α → K)
    (e : MergeEntry α K) : Prop :=
  e.key = key e.head
  ∧ (e.head :: e.rest).Pairwise (fun a b => key a ≤ key b)
  ∧ (∀ x ∈ e.head :: e.rest, truthy x = true)

/-- All elements still inside the heap. -/
def heap_contents {α K : Type} (heap : List (MergeEntry α K)) : List α :=
  (heap.map (fun e => e.head :: e.rest)).flatten

theorem heap_size_perm {α K : Type} {l1 l2 : List (MergeEntry α K)} (h : l1.Perm l2) :
    heap_size l1 = heap_size l2 :=
  (h.map entry_size).sum_eq

theorem heap_contents_perm {α K : Type} {l1 l2 : List (MergeEntry α K)} (h : l1.Perm l2) :
    (heap_contents l1).Perm (heap_contents l2) := by
  unfold heap_contents
  exact (h.map (fun e => e.head :: e.rest)).flatten

theorem merge_enqueue_inv {α K : Type} [LinearOrder K] (truthy : α → Bool) (key : α → K) (idx : ℕ)
    (stream : List α) (heap : List (MergeEntry α K))
    (hs : stream.Pairwise (fun a b => key a ≤ key b))
    (ht : ∀ x ∈ stream, truthy x = true)
    (hinv : ∀ f ∈ heap, EntryInv truthy key f) :
    ∀ f ∈ merge_enqueue truthy key idx stream heap, EntryInv truthy key f := by
  cases stream with
  | nil => exact hinv
  | cons h t =>
    rw [merge_enqueue]
    by_cases hth : truthy h
    · rw [if_pos hth]
      intro f hf
      rcases List.mem_cons.mp hf with hf | hf
      · subst hf
        exact ⟨rfl, hs, ht⟩
      · exact hinv f hf
    · rw [if_neg hth]
      exact hinv

theorem merge_enqueue_contents {α K : Type} (truthy : α → Bool) (key : α → K) (idx : ℕ)
    (stream : List α) (heap : List (MergeEntry α K))
    (ht : ∀ x ∈ stream, truthy x = true) :
    heap_contents (merge_enqueue truthy key idx stream heap) = stream ++ heap_contents heap := by
  cases stream with
  | nil => rfl
  | cons h t =>
    rw [merge_enqueue, if_pos (ht h (List.mem_cons_self h t))]
    rfl

theorem merge_enqueue_size {α K : Type} (truthy : α → Bool) (key : α → K) (idx : ℕ)
    (stream : List α) (heap : List (MergeEntry α K)) :
    heap_size (merge_enqueue truthy key idx stream heap) ≤ stream.length + heap_size heap := by
  cases stream with
  | nil =>
    rw [merge_enqueue]
    omega
  | cons h t =>
    rw [merge_enqueue]
    by_cases hth : truthy h
    · rw [if_pos hth]
      unfold heap_size
      rw [List.map_cons, List.sum_cons]
      unfold entry_size
      simp only [List.length_cons]
      omega
    · rw [if_neg hth]
      simp only [List.length_cons]
      omega

theorem merge_loop_spec {α K : Type} [LinearOrder K] (truthy : α → Bool) (key : α → K) :
    ∀ (fuel : ℕ) (heap : List (MergeEntry α K)), heap_size heap ≤ fuel →
    (∀ e ∈ heap, EntryInv truthy key e) →
    ((merge_loop truthy key fuel heap).map Prod.fst).Perm (heap_contents heap)
    ∧ (merge_loop truthy key fuel heap).Pairwise
        (fun p q => pairLE (key p.1, p.2) (key q.1, q.2))
    ∧ (∀ b, (∀ e ∈ heap, pairLE b (entKey e)) →
        ∀ p ∈ merge_loop truthy key fuel heap, pairLE b (key p.1, p.2)) := by
  intro fuel
  induction fuel with
  | zero =>
    intro heap hsz hinv
    have hnil : heap = [] := by
      cases heap with
      | nil => rfl
      | cons e es =>
        exfalso
        have h1 : 1 ≤ heap_size (e :: es) := by
          unfold heap_size
          rw [List.map_cons, List.sum_cons]
          unfold entry_size
          omega
        omega
    subst hnil
    exact ⟨List.Perm.refl _, List.Pairwise.nil,
      fun b hb p hp => absurd hp (List.not_mem_nil p)⟩
  | succ fuel ih =>
    intro heap hsz hinv
    rw [merge_loop]
    cases hpop : popMin heap with
    | none =>
      have hnil := popMin_eq_none hpop
      subst hnil
      exact ⟨List.Perm.refl _, List.Pairwise.nil,
        fun b hb p hp => absurd hp (List.not_mem_nil p)⟩
    | some pr =>
      obtain ⟨e, rest⟩ := pr
      have hperm := popMin_perm hpop
      have hmin := popMin_min hpop
      have hinv_e : EntryInv truthy key e :=
        hinv e (hperm.symm.subset (List.mem_cons_self e rest))
      obtain ⟨hek, hpw, htr⟩ := hinv_e
      have htr' : ∀ x ∈ e.rest, truthy x = true :=
        fun x hx => htr x (List.mem_cons_of_mem _ hx)
      have hinv2 : ∀ f ∈ merge_enqueue truthy key e.idx e.rest rest, EntryInv truthy key f :=
        merge_enqueue_inv truthy key e.idx e.rest rest (List.Pairwise.of_cons hpw) htr'
          (fun f hf => hinv f (hperm.symm.subset (List.mem_cons_of_mem e hf)))
      have hsz_eq : heap_size heap = entry_size e + heap_size rest := by
        rw [heap_size_perm hperm]
        unfold heap_size
        rw [List.map_cons, List.sum_cons]
      have hsz2 : heap_size (merge_enqueue truthy key e.idx e.rest rest) ≤ fuel := by
        have h2 := merge_enqueue_size truthy key e.idx e.rest rest
        unfold entry_size at hsz_eq
        omega
      obtain ⟨ihp, ihs, ihb⟩ := ih (merge_enqueue truthy key e.idx e.rest rest) hsz2 hinv2
      have hb2 : ∀ f ∈ merge_enqueue truthy key e.idx e.rest rest,
          pairLE (entKey e) (entKey f) := by
        intro f hf
        cases hr : e.rest with
        | nil =>
          rw [hr, merge_enqueue] at hf
          exact hmin f (hperm.symm.subset (List.mem_cons_of_mem e hf))
        | cons h t =>
          rw [hr, merge_enqueue] at hf
          have hth : truthy h = true := htr' h (by rw [hr]; exact List.mem_cons_self h t)
          rw [if_pos hth] at hf
          rcases List.mem_cons.mp hf with hf | hf
          · subst hf
            have hkey_le : key e.head ≤ key h := by
              have hrel := (List.pairwise_cons.mp hpw).1
              exact hrel h (by rw [hr]; exact List.mem_cons_self h t)
            have hkley : e.key ≤ key h := hek ▸ hkey_le
            rcases lt_or_eq_of_le hkley with hlt | heq
            · exact Or.inl hlt
            · exact Or.inr ⟨heq, le_refl _⟩
          · exact hmin f (hperm.symm.subset (List.mem_cons_of_mem e hf))
      have hcont2 : heap_contents (merge_enqueue truthy key e.idx e.rest rest)
          = e.rest ++ heap_contents rest :=
        merge_enqueue_contents truthy key e.idx e.rest rest htr'
      refine ⟨?_, ?_, ?_⟩
      · rw [List.map_cons]
        have hstep : ((merge_loop truthy key fuel
            (merge_enqueue truthy key e.idx e.rest rest)).map Prod.fst).Perm
            (e.rest ++ heap_contents rest) := hcont2 ▸ ihp
        calc ((e.head, e.idx).1 :: (merge_loop truthy key fuel
              (merge_enqueue truthy key e.idx e.rest rest)).map Prod.fst)
            ~ e.head :: (e.rest ++ heap_contents rest) := hstep.cons e.head
          _ = heap_contents (e :: rest) := rfl
          _ ~ heap_contents heap := (heap_contents_perm hperm).symm
      · rw [List.pairwise_cons]
        refine ⟨?_, ihs⟩
        intro q hq
        have hle := ihb (entKey e) hb2 q hq
        have hkk : (key (e.head, e.idx).1, (e.head, e.idx).2) = entKey e := by
          rw [entKey, hek]
        rw [hkk]
        exact hle
      · intro b hb p hp
        rcases List.mem_cons.mp hp with hp | hp
        · subst hp
          have hb_e := hb e (hperm.symm.subset (List.mem_cons_self e rest))
          have hkk : (key (e.head, e.idx).1, (e.head, e.idx).2) = entKey e := by
            rw [entKey, hek]
          rw [hkk]
          exact hb_e
        · refine ihb b ?_ p hp
          intro f hf
          exact pairLE_trans (hb e (hperm.symm.subset (List.mem_cons_self e rest))) (hb2 f hf)

theorem merge_init_go_inv {α K : Type} [LinearOrder K] (truthy : α → Bool) (key : α → K) :
    ∀ (ss : List (List α)) (idx : ℕ) (heap : List (MergeEntry α K)),
    (∀ s ∈ ss, s.Pairwise (fun a b => key a ≤ key b)) →
    (∀ s ∈ ss, ∀ x ∈ s, truthy x = true) →
    (∀ f ∈ heap, EntryInv truthy key f) →
    ∀ f ∈ merge_init_go truthy key idx ss heap, EntryInv truthy key f := by
  intro ss
  induction ss with
  | nil =>
    intro idx heap _ _ hinv
    exact hinv
  | cons s ss ih =>
    intro idx heap hsorted htruthy hinv
    rw [merge_init_go]
    exact ih (idx + 1) _
      (fun s2 hs2 => hsorted s2 (List.mem_cons_of_mem s hs2))
      (fun s2 hs2 => htruthy s2 (List.mem_cons_of_mem s hs2))
      (merge_enqueue_inv truthy key idx s heap (hsorted s (List.mem_cons_self s ss))
        (htruthy s (List.mem_cons_self s ss)) hinv)

theorem merge_init_go_contents {α K : Type} (truthy : α → Bool) (key : α → K) :
    ∀ (ss : List (List α)) (idx : ℕ) (heap : List (MergeEntry α K)),
    (∀ s ∈ ss, ∀ x ∈ s, truthy x = true) →
    (heap_contents (merge_init_go truthy key idx ss heap)).Perm
      (heap_contents heap ++ ss.flatten) := by
  intro ss
  induction ss with
  | nil =>
    intro idx heap _
    rw [merge_init_go]
    simp
  | cons s ss ih =>
    intro idx heap htruthy
    rw [merge_init_go]
    have h1 := ih (idx + 1) (merge_enqueue truthy key idx s heap)
      (fun s2 hs2 => htruthy s2 (List.mem_cons_of_mem s hs2))
    rw [merge_enqueue_contents truthy key idx s heap (htruthy s (List.mem_cons_self s ss))]
      at h1
    refine h1.trans ?_
    calc ((s ++ heap_contents heap) ++ ss.flatten)
        ~ ((heap_contents heap ++ s) ++ ss.flatten) :=
          List.perm_append_comm.append_right ss.flatten
      _ = heap_contents heap ++ (s :: ss).flatten := by simp

/-- C9 counterexample: the sorted singleton stream `[0]` merges to the empty
sequence — `if not head: return` treats the falsy element `0` as
end-of-stream and drops it — so the output is not a permutation of the
inputs' elements. -/
theorem merge_streams_falsy_claim_cex :
    merge_streams nat_truthy (fun n => n) [[0]] = ([] : List ℕ)
    ∧ ¬ (merge_streams nat_truthy (fun n => n) [[0]]).Perm ([[0]] : List (List ℕ)).flatten := by
  refine ⟨rfl, fun h => ?_⟩
  have h2 : ([] : List ℕ).Perm [0] := h
  exact List.noConfusion (List.Perm.eq_nil h2.symm)

/-- C9 (amended): for sorted input streams all of whose elements are truthy
(Python-non-falsy — a falsy element silently ends its stream, see the
counterexample), `merge_streams` emits a permutation of all elements of all
inputs; the emitted sequence, annotated with each element's source-stream
index, is sorted in the lexicographic order on `(key, index)` — hence the
output is sorted by the key function, and among equal keys elements from a
lower-indexed stream are emitted first. -/
theorem merge_streams_sorted_perm {α K : Type} [LinearOrder K] (truthy : α → Bool)
    (key : α → K) (streams : List (List α))
    (hsorted : ∀ s ∈ streams, s.Pairwise (fun a b => key a ≤ key b))
    (htruthy : ∀ s ∈ streams, ∀ x ∈ s, truthy x = true) :
    (merge_streams truthy key streams).Perm streams.flatten
    ∧ (merge_loop truthy key (heap_size (merge_init truthy key streams))
        (merge_init truthy key streams)).Pairwise
        (fun p q => pairLE (key p.1, p.2) (key q.1, q.2))
    ∧ (merge_streams truthy key streams).Pairwise (fun a b => key a ≤ key b) := by
  have hinv : ∀ f ∈ merge_init truthy key streams, EntryInv truthy key f :=
    merge_init_go_inv truthy key streams 0 [] hsorted htruthy
      (fun f hf => absurd hf (List.not_mem_nil f))
  obtain ⟨hp, hs, _⟩ := merge_loop_spec truthy key
    (heap_size (merge_init truthy key streams)) (merge_init truthy key streams)
    le_rfl hinv
  have hcont : (heap_contents (merge_init truthy key streams)).Perm streams.flatten := by
    have h1 := merge_init_go_contents truthy key streams 0 [] htruthy
    simpa using h1
  refine ⟨hp.trans hcont, hs, ?_⟩
  exact hs.map Prod.fst (fun p q hpq => by
    rcases hpq with h | ⟨h, _⟩
    · exact le_of_lt h
    · exact le_of_eq h)

/-- Witness for `merge_streams_sorted_perm`: streams `[1,3]` and `[2,3]`
merge to `[1,2,3,3]`, the duplicate key `3` resolved stream-0-first. -/
theorem merge_streams_sorted_perm_witness :
    (∀ s ∈ ([[1, 3], [2, 3]] : List (List ℕ)), s.Pairwise (fun a b => a ≤ b))
    ∧ (∀ s ∈ ([[1, 3], [2, 3]] : List (List ℕ)), ∀ x ∈ s, nat_truthy x = true)
    ∧ merge_streams nat_truthy (fun n => n) [[1, 3], [2, 3]] = [1, 2, 3, 3]
    ∧ ((merge_streams nat_truthy (fun n => n) [[1, 3], [2, 3]]).Perm
        ([[1, 3], [2, 3]] : List (List ℕ)).flatten
      ∧ (merge_loop nat_truthy (fun n => n)
          (heap_size (merge_init nat_truthy (fun n => n) [[1, 3], [2, 3]]))
          (merge_init nat_truthy (fun n => n) [[1, 3], [2, 3]])).Pairwise
          (fun p q => pairLE (p.1, p.2) (q.1, q.2))
      ∧ (merge_streams nat_truthy (fun n => n) [[1, 3], [2, 3]]).Pairwise
          (fun a b => a ≤ b)) :=
  ⟨by decide, by decide, by decide,
    merge_streams_sorted_perm nat_truthy (fun n => n) [[1, 3], [2, 3]]
      (by decide) (by decide)⟩

end Fioctl
